import Mathlib

/-!
Verification development for the lab-manager remote-management system
(admin server `admin.py`, student client `client.py`).

The wire protocol is modelled at the byte level: a byte is a `Nat`
(value of the octet), a stream is a `List Nat`, and a socket `recv`
call is modelled by consuming a prefix of the not-yet-delivered stream
whose size is chosen by an adversarial oracle (`chunkLen`), clipped to
the caller's cap and to the available bytes, and always at least one
byte when data is available (a real `recv` returns a nonempty prefix
unless the peer closed).  Loops of the Python source that have no
structural termination argument are given explicit fuel; every call
site passes fuel that provably dominates the number of iterations
(each iteration consumes at least one byte of the remaining stream).

Python `str` values coming from `line.decode('utf-8', errors='ignore')
.strip()` are kept as byte lists; `stripBytes`/`upperBytes` mirror
`str.strip`/`str.upper` on ASCII data, which is the domain on which
all theorems below quantify.
-/

namespace Thesis

/-- A byte stream (each entry is an octet value). -/
abbrev Bytes := List Nat

/-! ## Configuration constants (from `admin.py` / `client.py`) -/

/-- `RECV_BUFFER = 65536` in `admin.py`. -/
def RECV_BUFFER : Nat := 65536

/-- `BUFFER_SIZE = 65536` in `client.py`. -/
def BUFFER_SIZE : Nat := 65536

/-- `MAX_IMAGE_SIZE = 200 * 1024 * 1024` in `admin.py`. -/
def MAX_IMAGE_SIZE : Nat := 200 * 1024 * 1024

/-- The file-upload bound `10 * 1024 * 1024 * 1024` hard-coded in
`ClientHandler._receive_file_from_buffer`. -/
def MAX_FILE_SIZE : Nat := 10 * 1024 * 1024 * 1024

/-! ## Python string helpers on ASCII byte lists -/

/-- ASCII code points for which Python `str.isspace` holds (tab through
carriage return, the four information separators 0x1c-0x1f, and the
space), hence the ASCII characters `str.strip` removes. -/
def isSpaceByte (b : Nat) : Bool :=
  b = 32 || (9 ≤ b && b ≤ 13) || (28 ≤ b && b ≤ 31)

/-- Model of `str.strip` on ASCII byte data. -/
def stripBytes (l : Bytes) : Bytes :=
  ((l.dropWhile isSpaceByte).reverse.dropWhile isSpaceByte).reverse

/-- Model of `str.upper` on one ASCII code point.  Python `str.upper`
agrees with this map on every ASCII string; outside ASCII it follows
the Unicode case table (which this development does not model — the
reader-loop delivery theorems therefore confine their line domain to
ASCII, see `itemOK`). -/
def upperByte (b : Nat) : Nat :=
  if 97 ≤ b ∧ b ≤ 122 then b - 32 else b

/-- `str.upper` on a list of ASCII code points. -/
def upperBytes (l : Bytes) : Bytes := l.map upperByte

/-- One pass of the CPython UTF-8 decoder under `errors='ignore'`,
with fuel dominating the byte count (each step consumes at least one
byte).  Valid sequences decode to their code point; an invalid start
byte (0x80-0xc1, 0xf5-0xff) is skipped; a multi-byte sequence broken
at continuation `k` drops the `k` bytes read so far and resumes at
the offending byte (CPython's maximal-subpart errors= handling, so
`b"\xc2A"` decodes to `"A"` and `b"\xe0\xa0A"` to `"A"`); input
truncated inside a sequence yields nothing further.  The lead-byte
dependent ranges of the first continuation exclude overlong forms
(0xe0, 0xf0), surrogates (0xed) and code points above 0x10ffff
(0xf4), exactly as CPython rejects them. -/
def utf8Go : Nat → Bytes → List Nat
  | 0, _ => []
  | _ + 1, [] => []
  | f + 1, b :: t =>
    if b < 128 then b :: utf8Go f t
    else if b < 194 then utf8Go f t
    else if b < 224 then
      match t with
      | [] => []
      | c1 :: t1 =>
        if 128 ≤ c1 ∧ c1 < 192 then
          ((b - 192) * 64 + (c1 - 128)) :: utf8Go f t1
        else utf8Go f t
    else if b < 240 then
      match t with
      | [] => []
      | c1 :: t1 =>
        if (if b = 224 then 160 ≤ c1 ∧ c1 < 192
            else if b = 237 then 128 ≤ c1 ∧ c1 < 160
            else 128 ≤ c1 ∧ c1 < 192) then
          match t1 with
          | [] => []
          | c2 :: t2 =>
            if 128 ≤ c2 ∧ c2 < 192 then
              ((b - 224) * 4096 + (c1 - 128) * 64 + (c2 - 128)) ::
                utf8Go f t2
            else utf8Go f t1
        else utf8Go f t
    else if b < 245 then
      match t with
      | [] => []
      | c1 :: t1 =>
        if (if b = 240 then 144 ≤ c1 ∧ c1 < 192
            else if b = 244 then 128 ≤ c1 ∧ c1 < 144
            else 128 ≤ c1 ∧ c1 < 192) then
          match t1 with
          | [] => []
          | c2 :: t2 =>
            if 128 ≤ c2 ∧ c2 < 192 then
              match t2 with
              | [] => []
              | c3 :: t3 =>
                if 128 ≤ c3 ∧ c3 < 192 then
                  ((b - 240) * 262144 + (c1 - 128) * 4096 +
                    (c2 - 128) * 64 + (c3 - 128)) :: utf8Go f t3
                else utf8Go f t2
            else utf8Go f t1
        else utf8Go f t
    else utf8Go f t

/-- `bytes.decode('utf-8', errors='ignore')`: the code points of the
byte string, invalid subsequences dropped. -/
def utf8DecodeIgnore (l : Bytes) : List Nat := utf8Go (l.length + 1) l

/-- Python `str.isspace` on one code point: the full Unicode
whitespace list (ASCII whitespace, NEL, NBSP, OGHAM SPACE MARK, the
0x2000-0x200a spaces, LINE and PARAGRAPH SEPARATOR, NARROW NBSP,
MATHEMATICAL MEDIUM SPACE, IDEOGRAPHIC SPACE). -/
def pyIsSpaceCp (c : Nat) : Bool :=
  c = 32 || (9 ≤ c && c ≤ 13) || (28 ≤ c && c ≤ 31) || c = 133 ||
  c = 160 || c = 5760 || (8192 ≤ c && c ≤ 8202) || c = 8232 ||
  c = 8233 || c = 8239 || c = 8287 || c = 12288

/-- Python `str.strip()` on a list of code points. -/
def pyStrip (l : List Nat) : List Nat :=
  ((l.dropWhile pyIsSpaceCp).reverse.dropWhile pyIsSpaceCp).reverse

/-- Split a buffer at the first newline byte: model of
`buffer.split(b'\n', 1)` guarded by `b'\n' in buffer`. -/
def splitAtNL : Bytes → Option (Bytes × Bytes)
  | [] => none
  | b :: t =>
    if b = 10 then some ([], t)
    else (splitAtNL t).map (fun p => (b :: p.1, p.2))

/-! ## Keyword byte constants -/

/-- Bytes of `"FRAME"`. -/
def FRAME_B : Bytes := [70, 82, 65, 77, 69]

/-- Bytes of `"FILE"`. -/
def FILE_B : Bytes := [70, 73, 76, 69]

/-- Bytes of `"FILE_BACK"`. -/
def FILE_BACK_B : Bytes := [70, 73, 76, 69, 95, 66, 65, 67, 75]

/-- Bytes of `"HEARTBEAT"`. -/
def HEARTBEAT_B : Bytes := [72, 69, 65, 82, 84, 66, 69, 65, 84]

/-- Bytes of `"STATUS"`. -/
def STATUS_B : Bytes := [83, 84, 65, 84, 85, 83]

/-- Bytes of `"MSG"`. -/
def MSG_B : Bytes := [77, 83, 71]

/-- Bytes of the literal file-push terminator `"<END>"`. -/
def END_B : Bytes := [60, 69, 78, 68, 62]

/-- Bytes of `"SEND_FILE:"`. -/
def SEND_FILE_COLON_B : Bytes := [83, 69, 78, 68, 95, 70, 73, 76, 69, 58]

/-! ## Big-endian integers (`struct.pack`/`struct.unpack`) -/

/-- Big-endian byte encoding of `n` on `k` bytes; for `n < 256 ^ k`
this is exactly `struct.pack` with width `k` (`">Q"` is `k = 8`,
`">I"` is `k = 4`). -/
def beBytes : Nat → Nat → Bytes
  | 0, _ => []
  | k + 1, n => n / 256 ^ k :: beBytes k (n % 256 ^ k)

/-- Big-endian decoding: model of `struct.unpack(">Q", s)[0]` on the
8-byte slice `s` (and `">I"` on a 4-byte slice). -/
def parseBe (l : Bytes) : Nat := l.foldl (fun a b => a * 256 + b) 0

/-! ## The recv model -/

/-- Number of bytes a `recv(cap)` call returns: the adversarial oracle
entry `o`, forced to be at least 1 (TCP `recv` returns at least one
byte unless the peer closed) and clipped to the cap and to the bytes
available. -/
def chunkLen (o cap avail : Nat) : Nat := min (min (max o 1) cap) avail

/-- `while len(buffer) < need: buffer += sock.recv(cap)` — accumulate
into `buffer` until at least `need` bytes are present.  `capped`
selects the cap `min(RECV_BUFFER, need - len(buffer))` used by the
frame-payload read (admin.py line 180); otherwise the cap is
`RECV_BUFFER`.  Returns `(completed, buffer, rest, oracle)`;
on `completed = false` the peer closed first (`rest` exhausted,
`raise ConnectionError`).  Fuel dominates iterations because every
iteration consumes at least one byte of `rest`. -/
def fillTo : Nat → Bool → Nat → Bytes → Bytes → List Nat →
    Bool × Bytes × Bytes × List Nat
  | 0, _, need, buffer, rest, oracle =>
    if need ≤ buffer.length then (true, buffer, rest, oracle)
    else (false, buffer, rest, oracle)
  | _ + 1, _, need, buffer, [], oracle =>
    if need ≤ buffer.length then (true, buffer, [], oracle)
    else (false, buffer, [], oracle)
  | f + 1, capped, need, buffer, r0 :: rtl, oracle =>
    if need ≤ buffer.length then (true, buffer, r0 :: rtl, oracle)
    else
      let cap := if capped then min RECV_BUFFER (need - buffer.length)
                 else RECV_BUFFER
      let k := chunkLen (oracle.headD RECV_BUFFER) cap (r0 :: rtl).length
      fillTo f capped need (buffer ++ (r0 :: rtl).take k)
        ((r0 :: rtl).drop k) oracle.tail

/-- `while remaining > 0: chunk = sock.recv(min(RECV_BUFFER, remaining));
outf.write(chunk); remaining -= len(chunk)` — the admin file-content
loop (admin.py lines 295-300).  Returns
`(written, completed, rest, oracle)`; `completed = false` models the
`raise ConnectionError` on a closed socket mid-transfer. -/
def drainTo : Nat → Nat → Bytes → Bytes → List Nat →
    Bytes × Bool × Bytes × List Nat
  | 0, remaining, acc, rest, oracle =>
    if remaining = 0 then (acc, true, rest, oracle)
    else (acc, false, rest, oracle)
  | _ + 1, remaining, acc, [], oracle =>
    if remaining = 0 then (acc, true, [], oracle)
    else (acc, false, [], oracle)
  | f + 1, remaining, acc, r0 :: rtl, oracle =>
    if remaining = 0 then (acc, true, r0 :: rtl, oracle)
    else
      let k := chunkLen (oracle.headD RECV_BUFFER)
        (min RECV_BUFFER remaining) (r0 :: rtl).length
      drainTo f (remaining - k) (acc ++ (r0 :: rtl).take k)
        ((r0 :: rtl).drop k) oracle.tail

/-- `while b'\n' not in buffer: buffer += sock.recv(RECV_BUFFER)` then
`meta_line, buffer = buffer.split(b'\n', 1)` — the metadata-line read
of `_receive_file_from_buffer` (admin.py lines 247-254).  `none`
models the silent `return` when the peer closes first. -/
def fillLine : Nat → Bytes → Bytes → List Nat →
    Option (Bytes × Bytes × Bytes × List Nat)
  | 0, buffer, rest, oracle =>
    match splitAtNL buffer with
    | some (l, b) => some (l, b, rest, oracle)
    | none => none
  | _ + 1, buffer, [], oracle =>
    match splitAtNL buffer with
    | some (l, b) => some (l, b, [], oracle)
    | none => none
  | f + 1, buffer, r0 :: rtl, oracle =>
    match splitAtNL buffer with
    | some (l, b) => some (l, b, r0 :: rtl, oracle)
    | none =>
      let k := chunkLen (oracle.headD RECV_BUFFER) RECV_BUFFER
        (r0 :: rtl).length
      fillLine f (buffer ++ (r0 :: rtl).take k) ((r0 :: rtl).drop k)
        oracle.tail

/-! ## Admin-side file reception (`_receive_file_from_buffer`) -/

/-- `os.path.basename` on POSIX: the part after the last `/` byte. -/
def pyBasenameB (l : Bytes) : Bytes :=
  l.foldl (fun acc b => if b = 47 then [] else acc ++ [b]) []

/-- Log/side events of `_receive_file_from_buffer`, in emission order. -/
inductive FileEv where
  | invalidSize (n : Nat)
  | receiving (fname : Bytes)
  | received (fname : Bytes)
  | error
  deriving DecidableEq, Repr

/-- Result of `_receive_file_from_buffer`: its log events, the final
file (name and byte-for-byte content) if the transfer completed, and
whether a stale `.part` temporary remains on disk, plus the
undelivered remainder of the socket stream. -/
structure FileRes where
  events : List FileEv
  finalFile : Option (Bytes × Bytes)
  tmpLeft : Bool
  rest : Bytes
  oracle : List Nat
  deriving DecidableEq, Repr

/-- `metadata.get("filename") or default`, then `os.path.basename`:
the filename the admin receiver uses.  `fm` abstracts the
`json.loads`-based metadata parsing of the raw metadata line (an
external library call); the Python `or` makes an empty filename fall
back to the default just like an absent one. -/
def fnameOfMeta (fm : Bytes → Option Bytes) (dn : Bytes)
    (metaLine : Bytes) : Bytes :=
  pyBasenameB (match fm metaLine with
    | some f => if f = [] then dn else f
    | none => dn)

/-- Model of `ClientHandler._receive_file_from_buffer` (admin.py lines
242-318): read a newline-terminated metadata line, an 8-byte
big-endian size, check `filesize < 0 or filesize > 10*1024**3`
(note `filesize` comes from `">Q"` so it is never negative), write
`min(len(buffer), filesize)` already-buffered bytes, then drain the
rest from the socket; on success the `.part` temporary is moved to the
final name, on a mid-transfer connection loss the `except` branch
logs the failure and removes the temporary. -/
def receive_file_from_buffer (fm : Bytes → Option Bytes) (dn : Bytes)
    (buffer rest : Bytes) (oracle : List Nat) : FileRes :=
  match fillLine (rest.length + 1) buffer rest oracle with
  | none => ⟨[], none, false, [], []⟩
  | some (metaLine, b1, r1, o1) =>
    match fillTo (r1.length + 1) false 8 b1 r1 o1 with
    | (false, _, _, _) => ⟨[], none, false, [], []⟩
    | (true, b2, r2, o2) =>
      let filesize := parseBe (b2.take 8)
      let b3 := b2.drop 8
      if filesize < 0 ∨ MAX_FILE_SIZE < filesize then
        ⟨[FileEv.invalidSize filesize], none, false, r2, o2⟩
      else
        let fname := fnameOfMeta fm dn metaLine
        let toWrite := min b3.length filesize
        let part0 := b3.take toWrite
        match drainTo (r2.length + 1) (filesize - toWrite) [] r2 o2 with
        | (written, true, r3, o3) =>
          ⟨[FileEv.receiving fname, FileEv.received fname],
            some (fname, part0 ++ written), false, r3, o3⟩
        | (_, false, r3, o3) =>
          ⟨[FileEv.receiving fname, FileEv.error], none, false, r3, o3⟩

/-! ## Admin-side reader loop (`_reader_loop`) -/

/-- Observable events of the admin reader loop, in emission order:
frame callbacks (`on_client_frame`), log lines, and file-receiver
events.  A `HEARTBEAT` line emits nothing (it only updates
`last_heartbeat`, admin.py lines 200-203). -/
inductive AEv where
  | peerClosed
  | frame (p : Bytes)
  | badFrameSize (n : Nat)
  | headerErr (h : Bytes)
  | statusLog (h : Bytes)
  | msgLog (h : Bytes)
  | otherLog (h : Bytes)
  | fileLog (e : FileEv)
  | livenessTimeout
  | fuelOut
  deriving DecidableEq, Repr

/-- Dispatch of one non-`FRAME`, non-file decoded header (the result
of `line.decode('utf-8', errors='ignore').strip()`): `HEARTBEAT`
emits nothing, `STATUS`/`MSG` prefix-matched log lines, everything
else is logged as an opaque command (admin.py lines 200-213).
`upperBytes` stands for `header.upper()`; the two agree on ASCII
headers, the domain to which the delivery theorems restrict their
command lines (`itemOK`). -/
def dispatchOf (h : Bytes) : List AEv :=
  if upperBytes h = HEARTBEAT_B then []
  else if STATUS_B.isPrefixOf (upperBytes h) then [AEv.statusLog h]
  else if MSG_B.isPrefixOf (upperBytes h) then [AEv.msgLog h]
  else [AEv.otherLog h]

/-- Reader-loop phase: about to `recv` (outer `while`), or processing
complete lines in the buffer (inner `while b'\n' in buffer`). -/
inductive Phase where
  | recv
  | lines
  deriving DecidableEq, Repr

/-- Model of `ClientHandler._reader_loop` (admin.py lines 134-233),
timeouts aside: append each received chunk to the buffer, split off
complete lines, decode each line as
`line.decode('utf-8', errors='ignore').strip()` (modelled by
`pyStrip` after `utf8DecodeIgnore`), and dispatch the resulting
header.  The `header.upper()` comparisons are modelled by
`upperBytes`, which agrees with `str.upper` on ASCII headers; outside
ASCII the Unicode case table is not modelled, so the delivery
theorems restrict their command lines to ASCII (`itemOK`).  `FRAME`
performs the nested dependent reads for the 8-byte size and the
payload, rejecting `size <= 0 or size > MAX_IMAGE_SIZE` with a
warning and `continue` (payload bytes stay in the buffer); a
`ConnectionError` raised inside a nested read is caught by the
per-header `except` (admin.py line 215), logged, and the loop
continues on the bytes read so far.  `FILE`/`FILE_BACK` hands the
buffer to the file receiver and then clears it (`buffer = b""`,
admin.py line 198), dropping any bytes the receiver had buffered
beyond the declared size.  An empty `recv` means the peer closed.
Fuel dominates the iteration count. -/
def runLoop (fm : Bytes → Option Bytes) (dn : Bytes) :
    Nat → Phase → Bytes → Bytes → List Nat → List AEv
  | 0, _, _, _, _ => [AEv.fuelOut]
  | fuel + 1, Phase.recv, buffer, rest, oracle =>
    match rest with
    | [] => [AEv.peerClosed]
    | r0 :: rtl =>
      let k := chunkLen (oracle.headD RECV_BUFFER) RECV_BUFFER
        (r0 :: rtl).length
      runLoop fm dn fuel Phase.lines (buffer ++ (r0 :: rtl).take k)
        ((r0 :: rtl).drop k) oracle.tail
  | fuel + 1, Phase.lines, buffer, rest, oracle =>
    match splitAtNL buffer with
    | none => runLoop fm dn fuel Phase.recv buffer rest oracle
    | some (line, buf) =>
      let header := pyStrip (utf8DecodeIgnore line)
      if header = [] then runLoop fm dn fuel Phase.lines buf rest oracle
      else if upperBytes header = FRAME_B then
        match fillTo (rest.length + 1) false 8 buf rest oracle with
        | (false, b1, r1, o1) =>
          AEv.headerErr header :: runLoop fm dn fuel Phase.lines b1 r1 o1
        | (true, b1, r1, o1) =>
          let size := parseBe (b1.take 8)
          let b2 := b1.drop 8
          if size ≤ 0 ∨ MAX_IMAGE_SIZE < size then
            AEv.badFrameSize size ::
              runLoop fm dn fuel Phase.lines b2 r1 o1
          else
            match fillTo (r1.length + 1) true size b2 r1 o1 with
            | (false, b3, r3, o3) =>
              AEv.headerErr header ::
                runLoop fm dn fuel Phase.lines b3 r3 o3
            | (true, b3, r3, o3) =>
              AEv.frame (b3.take size) ::
                runLoop fm dn fuel Phase.lines (b3.drop size) r3 o3
      else if upperBytes header = FILE_BACK_B ∨ upperBytes header = FILE_B
      then
        let fr := receive_file_from_buffer fm dn buf rest oracle
        fr.events.map AEv.fileLog ++
          runLoop fm dn fuel Phase.lines [] fr.rest fr.oracle
      else
        dispatchOf header ++ runLoop fm dn fuel Phase.lines buf rest oracle

/-- The reader loop started fresh on a connection whose peer will
deliver `stream`, chunked by `oracle`. -/
def reader_loop (fm : Bytes → Option Bytes) (dn : Bytes) (fuel : Nat)
    (stream : Bytes) (oracle : List Nat) : List AEv :=
  runLoop fm dn fuel Phase.recv [] stream oracle

/-! ## Canonical message streams -/

/-- A well-formed wire message arriving at the admin reader loop:
a command line, a frame with its payload, or a bare `FRAME` header
declaring an invalid size. -/
inductive Item where
  | line (l : Bytes)
  | frame (p : Bytes)
  | badFrame (s : Nat)
  deriving DecidableEq, Repr

/-- Wire rendering of one message. -/
def renderItem : Item → Bytes
  | Item.line l => l ++ [10]
  | Item.frame p => FRAME_B ++ [10] ++ beBytes 8 p.length ++ p
  | Item.badFrame s => FRAME_B ++ [10] ++ beBytes 8 s

/-- Wire rendering of a message sequence. -/
def renderAll (items : List Item) : Bytes :=
  (items.map renderItem).flatten

/-- Well-formedness of one message: a command line is ASCII (the
domain on which `decode('utf-8', errors='ignore')` is the identity
and `strip`/`upper` coincide with their byte-level models — outside
ASCII the program's classification depends on the Unicode case table,
which is not modelled), holds no newline, and is not a
`FRAME`/`FILE`/`FILE_BACK` header; a frame payload is nonempty and
within `MAX_IMAGE_SIZE`; a bad frame declares 0 or an oversize value
(within the unsigned 64-bit range `">Q"` can carry). -/
def itemOK : Item → Prop
  | Item.line l => (∀ b ∈ l, b < 128) ∧ (10 ∉ l) ∧
      upperBytes (stripBytes l) ≠ FRAME_B ∧
      upperBytes (stripBytes l) ≠ FILE_B ∧
      upperBytes (stripBytes l) ≠ FILE_BACK_B
  | Item.frame p => 0 < p.length ∧ p.length ≤ MAX_IMAGE_SIZE
  | Item.badFrame s => (s = 0 ∨ MAX_IMAGE_SIZE < s) ∧ s < 2 ^ 64

/-- Well-formedness of a message sequence. -/
def ItemsOK (items : List Item) : Prop := ∀ it ∈ items, itemOK it

/-- The events the admin loop must emit for one message. -/
def itemEvents : Item → List AEv
  | Item.line l =>
    if stripBytes l = [] then [] else dispatchOf (stripBytes l)
  | Item.frame p => [AEv.frame p]
  | Item.badFrame s => [AEv.badFrameSize s]

/-- The events for a message sequence, in arrival order. -/
def eventsAll (items : List Item) : List AEv :=
  (items.map itemEvents).flatten

/-! ## Admin-to-client file push: `ClientHandler.send_file` -/

/-- The `while True: chunk = f.read(RECV_BUFFER)` loop of
`ClientHandler.send_file` (admin.py lines 117-123): the chunks in
which the file is read and sent. -/
def fileReadChunks : Nat → Bytes → List Bytes
  | 0, _ => []
  | _ + 1, [] => []
  | f + 1, c0 :: ctl =>
    (c0 :: ctl).take RECV_BUFFER :: fileReadChunks f ((c0 :: ctl).drop RECV_BUFFER)

/-- The full byte sequence `ClientHandler.send_file` writes to the
socket: the `SEND_FILE:<basename>\n` header, the raw file bytes as
read in chunks, then the literal `<END>` terminator (admin.py lines
111-125). -/
def send_file_stream (basename content : Bytes) : Bytes :=
  (SEND_FILE_COLON_B ++ basename ++ [10]) ++
    (fileReadChunks (content.length + 1) content).flatten ++ END_B

/-! ## Client-side push reception: `StudentClient.receive_file` -/

/-- Leftmost occurrence of `pat` inside `l`: model of `bytes.find` /
the `in` test used for the `<END>` terminator scan. -/
def findSub (pat : Bytes) : Bytes → Option Nat
  | [] => if pat = [] then some 0 else none
  | b :: t =>
    if pat.isPrefixOf (b :: t) then some 0
    else (findSub pat t).map (fun n => n + 1)

/-- Truncate a byte sequence at the first occurrence of `<END>`
(keep everything when the terminator is absent). -/
def endTrunc (l : Bytes) : Bytes := l.take ((findSub END_B l).getD l.length)

/-- `while len(meta_json) < meta_len: chunk =
self.client_socket.recv(meta_len - len(meta_json))` (client.py lines
482-487); `none` models the error `return` on a closed socket. -/
def clientMeta : Nat → Nat → Bytes → Bytes → List Nat →
    Option (Bytes × Bytes × List Nat)
  | 0, need, acc, rest, oracle =>
    if need ≤ acc.length then some (acc, rest, oracle) else none
  | _ + 1, need, acc, [], oracle =>
    if need ≤ acc.length then some (acc, [], oracle) else none
  | f + 1, need, acc, r0 :: rtl, oracle =>
    if need ≤ acc.length then some (acc, r0 :: rtl, oracle)
    else
      let k := chunkLen (oracle.headD RECV_BUFFER) (need - acc.length)
        (r0 :: rtl).length
      clientMeta f need (acc ++ (r0 :: rtl).take k) ((r0 :: rtl).drop k)
        oracle.tail

/-- The `while True` body of `StudentClient.receive_file` (client.py
lines 514-529): read chunks of up to `BUFFER_SIZE`, scan each chunk
for the literal `<END>`, write the part before the first occurrence
and stop; a chunk without the terminator is written whole.  An empty
`recv` breaks the loop (the file is then reported as completed with
whatever was written). -/
def clientContent : Nat → Bytes → Bytes → List Nat →
    Bytes × Bytes × List Nat
  | 0, acc, [], oracle => (acc, [], oracle)
  | 0, acc, r0 :: rtl, oracle => (acc, r0 :: rtl, oracle)
  | _ + 1, acc, [], oracle => (acc, [], oracle)
  | f + 1, acc, r0 :: rtl, oracle =>
    let k := chunkLen (oracle.headD RECV_BUFFER) BUFFER_SIZE
      (r0 :: rtl).length
    let chunk := (r0 :: rtl).take k
    match findSub END_B chunk with
    | some pos => (acc ++ chunk.take pos, (r0 :: rtl).drop k, oracle.tail)
    | none => clientContent f (acc ++ chunk) ((r0 :: rtl).drop k) oracle.tail

/-- Result of `StudentClient.receive_file`: the bytes written to the
destination file (`none` when the routine returned early on a short
metadata-length read or a connection loss during metadata), the raw
metadata block it consumed, and the undelivered remainder. -/
structure CRes where
  saved : Option Bytes
  metaRaw : Bytes
  rest : Bytes
  oracle : List Nat
  deriving DecidableEq, Repr

/-- Model of `StudentClient.receive_file` (client.py lines 470-545),
the routine `process_command` starts for a `SEND_FILE:<name>` header:
it first reads 4 bytes as a big-endian metadata length (erroring out
if the single `recv(4)` returns fewer), then that many metadata
bytes, then writes arriving chunks until a chunk contains the literal
`<END>`.  `rest` is the stream as it follows the `SEND_FILE:` header
line. -/
def client_receive_file (rest : Bytes) (oracle : List Nat) : CRes :=
  match rest with
  | [] => ⟨none, [], [], oracle⟩
  | r0 :: rtl =>
    let k := chunkLen (oracle.headD RECV_BUFFER) 4 (r0 :: rtl).length
    let mlb := (r0 :: rtl).take k
    if mlb.length < 4 then ⟨none, [], (r0 :: rtl).drop k, oracle.tail⟩
    else
      let m := parseBe mlb
      match clientMeta (((r0 :: rtl).drop k).length + 1) m []
        ((r0 :: rtl).drop k) oracle.tail with
      | none => ⟨none, [], [], []⟩
      | some (meta, r3, o3) =>
        match clientContent (r3.length + 1) [] r3 o3 with
        | (content, r4, o4) => ⟨some content, meta, r4, o4⟩

/-! ## Liveness: heartbeat handling and the two-tier timeout -/

/-- A reader-loop input at line granularity: a complete header line
arriving at wall-clock time `t`, or a 30-second `socket.timeout`
firing at time `t` with no data. -/
inductive TEv where
  | line (t : ℚ) (l : Bytes)
  | timeout (t : ℚ)

/-- Line-granular model of the `_reader_loop` liveness behavior
(admin.py lines 200-203 and 220-227) for line traffic: a `HEARTBEAT`
line sets `last_heartbeat` to the current time and emits nothing;
any other line is dispatched; a `socket.timeout` tears the connection
down when `time.time() - self.last_heartbeat > 60`, and is otherwise
ignored.  (`FRAME`/`FILE` traffic is covered by `runLoop`.) -/
def liveLoop : List TEv → ℚ → List AEv
  | [], _ => [AEv.peerClosed]
  | TEv.line t l :: evs, lastHb =>
    let header := stripBytes l
    if header = [] then liveLoop evs lastHb
    else if upperBytes header = HEARTBEAT_B then liveLoop evs t
    else dispatchOf header ++ liveLoop evs lastHb
  | TEv.timeout t :: evs, lastHb =>
    if 60 < t - lastHb then [AEv.livenessTimeout] else liveLoop evs lastHb

/-- A trace in which every timeout check happens at most 60 seconds
after the heartbeat timestamp current at that point. -/
def goodT : List TEv → ℚ → Prop
  | [], _ => True
  | TEv.line t l :: evs, lastHb =>
    goodT evs (if upperBytes (stripBytes l) = HEARTBEAT_B then t else lastHb)
  | TEv.timeout t :: evs, lastHb => t - lastHb ≤ 60 ∧ goodT evs lastHb

/-! ## Filesystem paths (client `_resolve_destination_path`, admin inbox) -/

/-- An absolute filesystem path as its list of components. -/
abbrev Path := List Bytes

/-- One `normpath` step: empty and `.` components vanish, `..` pops
the previous component (and is dropped at the root). -/
def normStep (acc : Path) (c : Bytes) : Path :=
  if c = [] then acc
  else if c = [46] then acc
  else if c = [46, 46] then acc.dropLast
  else acc ++ [c]

/-- POSIX `os.path.normpath`/`os.path.abspath` normalization on an
absolute path given by components. -/
def normalizeP (p : Path) : Path := p.foldl normStep []

/-- Model of `str.lower` on one ASCII byte. -/
def lowerByte (b : Nat) : Nat :=
  if 65 ≤ b ∧ b ≤ 90 then b + 32 else b

/-- Model of `str.lower` on ASCII byte data. -/
def lowerBytes (l : Bytes) : Bytes := l.map lowerByte

/-- Index of the last `.` byte in a single path component. -/
def lastDotIdx (c : Bytes) : Option Nat :=
  ((List.range c.length).filter (fun i => c.getD i 0 = 46)).getLast?

/-- Model of `os.path.splitext` restricted to the final path
component: split at the last dot unless every byte before it is a
dot (so `..` and `.bashrc` have no extension). -/
def splitextB (c : Bytes) : Bytes × Bytes :=
  match lastDotIdx c with
  | none => (c, [])
  | some d =>
    if (c.take d).all (fun b => b = 46) then (c, [])
    else (c.take d, c.drop d)

/-- ASCII decimal digits of `n` (the f-string rendering of the
collision counter). -/
def natDecB (n : Nat) : Bytes := (Nat.toDigits 10 n).map Char.toNat

/-- The collision candidate `f"{base}_{counter}{ext}"` as a path. -/
def counterCand (dir : Path) (stem ext : Bytes) (c : Nat) : Path :=
  dir ++ [stem ++ [95] ++ natDecB c ++ ext]

/-- The `while os.path.exists(f"{base}_{counter}{ext}"): counter += 1`
loop of `_resolve_destination_path` (client.py lines 722-724); `fs`
is the set of existing paths.  The Python loop carries no bound
because the filesystem is finite; the fuel passed by the caller
dominates any terminating run. -/
def findFree (fs : List Path) (dir : Path) (stem ext : Bytes) :
    Nat → Nat → Nat
  | c, 0 => c
  | c, fuel + 1 =>
    if counterCand dir stem ext c ∈ fs then
      findFree fs dir stem ext (c + 1) fuel
    else c

/-- Component lists of the `Downloads`, `Desktop` and `Documents`
destination keywords together with their lowercase spellings. -/
def DOWNLOADS_LC : Bytes := [100, 111, 119, 110, 108, 111, 97, 100, 115]

/-- Lowercase bytes of `"desktop"`. -/
def DESKTOP_LC : Bytes := [100, 101, 115, 107, 116, 111, 112]

/-- Lowercase bytes of `"documents"`. -/
def DOCUMENTS_LC : Bytes := [100, 111, 99, 117, 109, 101, 110, 116, 115]

/-- Bytes of the `"Downloads"` directory component. -/
def DOWNLOADS_C : Bytes := [68, 111, 119, 110, 108, 111, 97, 100, 115]

/-- Bytes of the `"Desktop"` directory component. -/
def DESKTOP_C : Bytes := [68, 101, 115, 107, 116, 111, 112]

/-- Bytes of the `"Documents"` directory component. -/
def DOCUMENTS_C : Bytes := [68, 111, 99, 117, 109, 101, 110, 116, 115]

/-- Bytes of the `"lab_inbox_admin"` directory component. -/
def INBOX_C : Bytes :=
  [108, 97, 98, 95, 105, 110, 98, 111, 120, 95, 97, 100, 109, 105, 110]

/-- `INBOX_DIR = os.path.join(os.path.expanduser("~"), "lab_inbox_admin")`
(admin.py line 30). -/
def inboxDir (home : Path) : Path := home ++ [INBOX_C]

/-- The admin receiver's output path
`os.path.join(INBOX_DIR, os.path.basename(fname))` as resolved by the
operating system (admin.py lines 279-282). -/
def admin_outpath (home : Path) (fname : Bytes) : Path :=
  normalizeP (inboxDir home ++ [pyBasenameB fname])

/-- A path component that survives `normpath` untouched (not empty,
not `.`, not `..`). -/
def cleanComp (c : Bytes) : Prop := c ≠ [] ∧ c ≠ [46] ∧ c ≠ [46, 46]

/-- The destination-keyword mapping of `_resolve_destination_path`
(client.py lines 702-711): `downloads`/`desktop`/`documents`
case-insensitively under the home directory, anything else treated as
a custom path made absolute against the working directory. -/
def resolveBase (home cwd : Path) (destination : Bytes) : Path :=
  if lowerBytes destination = DOWNLOADS_LC then home ++ [DOWNLOADS_C]
  else if lowerBytes destination = DESKTOP_LC then home ++ [DESKTOP_C]
  else if lowerBytes destination = DOCUMENTS_LC then home ++ [DOCUMENTS_C]
  else (if destination.headD 0 = 47 then [] else cwd) ++
    destination.splitOn 47

/-- The uniqueness step of `_resolve_destination_path` (client.py
lines 719-726): if the resolved path exists, split the extension off
its last component and append `_<counter>` for the first free
counter, starting at 1. -/
def resolveCollision (fs : List Path) (fp : Path) : Path :=
  if fp ∈ fs then
    let dir := fp.dropLast
    let c := fp.getLastD []
    let se := splitextB c
    counterCand dir se.1 se.2
      (findFree fs dir se.1 se.2 1 (fs.length + 1))
  else fp

/-- Model of `StudentClient._resolve_destination_path` (client.py
lines 697-732): map the destination keyword (case-insensitively) to
a directory under the home directory, or treat it as a custom path
made absolute against the working directory; join the filename and
normalize (`os.path.abspath`); if the result exists in `fs`, append
the first free `_<counter>` before the extension. -/
def resolve_destination_path (fs : List Path) (home cwd : Path)
    (destination filename : Bytes) : Path :=
  resolveCollision fs
    (normalizeP (normalizeP (resolveBase home cwd destination) ++
      [filename]))

/-! ## Registry broadcast (`AdminServer.broadcast_command`) -/

/-- What `broadcast_command` produces: the send attempt (with its
outcome) made for every session of the locked snapshot, the success
counter, the totals reported in the final log line, and the Python
return value of the routine. -/
structure BroadcastRes (α : Type) where
  attempts : List (α × Bool)
  success : Nat
  total : Nat
  logCounts : Nat × Nat
  ret : Option (Nat × Nat)

/-- Model of `AdminServer.broadcast_command` (admin.py lines 428-438):
snapshot the registry under the lock, call `send_command` (which
catches its own exceptions and returns a Bool, admin.py lines 87-97)
on every handler in order, count successes, and log
`Broadcast ... to success/total clients`.  The Python function ends
with the log call and returns `None`. -/
def broadcast_command {α : Type} (clients : List α) (sendOk : α → Bool) :
    BroadcastRes α :=
  let snapshot := clients
  let attempts := snapshot.map (fun h => (h, sendOk h))
  let success := snapshot.countP (fun h => sendOk h)
  { attempts := attempts
    success := success
    total := snapshot.length
    logCounts := (success, snapshot.length)
    ret := none }

/-- First-match lookup in a path-keyed store; `os.replace` is
modelled by prepending the new binding, which shadows any existing
file of the same name (silent overwrite). -/
def fsLookup (fs : List (Path × Bytes)) (p : Path) : Option Bytes :=
  (fs.find? (fun e => e.1 == p)).map (fun e => e.2)

/-- `os.replace(tmp_path, outpath)`: the received content silently
replaces whatever was stored at `outpath` (admin.py lines 302-306). -/
def os_replace (fs : List (Path × Bytes)) (target : Path)
    (content : Bytes) : List (Path × Bytes) :=
  (target, content) :: fs

/-! ## List helper lemmas -/

theorem take_len_app (a b : Bytes) : (a ++ b).take a.length = a := by
  rw [List.take_append_of_le_length le_rfl, List.take_length]

theorem drop_len_app (a b : Bytes) : (a ++ b).drop a.length = b := by
  rw [List.drop_append_of_le_length le_rfl, List.drop_length,
    List.nil_append]

theorem take_app_of_le {n : Nat} {a : Bytes} (b : Bytes)
    (h : n ≤ a.length) : (a ++ b).take n = a.take n :=
  List.take_append_of_le_length h

theorem drop_app_of_le {n : Nat} {a : Bytes} (b : Bytes)
    (h : n ≤ a.length) : (a ++ b).drop n = a.drop n ++ b :=
  List.drop_append_of_le_length h

/-! ## Big-endian round trip -/

theorem beBytes_length (k n : Nat) : (beBytes k n).length = k := by
  induction k generalizing n with
  | zero => rfl
  | succ k ih => simp [beBytes, ih]

theorem parseBe_foldl (k n acc : Nat) (h : n < 256 ^ k) :
    (beBytes k n).foldl (fun a b => a * 256 + b) acc =
      acc * 256 ^ k + n := by
  induction k generalizing n acc with
  | zero =>
    simp [beBytes]
    omega
  | succ k ih =>
    have hp : 0 < 256 ^ k := Nat.pos_pow_of_pos _ (by norm_num)
    have hlt : n % 256 ^ k < 256 ^ k := Nat.mod_lt _ hp
    simp only [beBytes, List.foldl_cons]
    rw [ih _ _ hlt]
    have hmod : 256 ^ k * (n / 256 ^ k) + n % 256 ^ k = n :=
      Nat.div_add_mod n (256 ^ k)
    calc (acc * 256 + n / 256 ^ k) * 256 ^ k + n % 256 ^ k
        = acc * (256 ^ k * 256) + (256 ^ k * (n / 256 ^ k) + n % 256 ^ k) := by
          ring
      _ = acc * 256 ^ (k + 1) + n := by rw [hmod]; ring

theorem parseBe_beBytes (k n : Nat) (h : n < 256 ^ k) :
    parseBe (beBytes k n) = n := by
  have := parseBe_foldl k n 0 h
  simpa [parseBe] using this

/-! ## Newline splitting -/

theorem splitAtNL_eq_some {buffer l b : Bytes}
    (h : splitAtNL buffer = some (l, b)) :
    buffer = l ++ 10 :: b ∧ (10 : Nat) ∉ l := by
  induction buffer generalizing l b with
  | nil => simp [splitAtNL] at h
  | cons x t ih =>
    by_cases hx : x = 10
    · subst hx
      simp [splitAtNL] at h
      obtain ⟨h1, h2⟩ := h
      subst h1; subst h2
      simp
    · simp only [splitAtNL, if_neg hx] at h
      match hs : splitAtNL t with
      | none => rw [hs] at h; simp at h
      | some (l', b') =>
        rw [hs] at h
        simp at h
        obtain ⟨h1, h2⟩ := h
        obtain ⟨ht, hnl⟩ := ih hs
        subst h2
        constructor
        · rw [← h1, ht]; rfl
        · rw [← h1]
          intro hmem
          rcases List.mem_cons.mp hmem with h10 | h10
          · exact hx h10.symm
          · exact hnl h10

theorem splitAtNL_eq_none {buffer : Bytes} :
    splitAtNL buffer = none ↔ (10 : Nat) ∉ buffer := by
  induction buffer with
  | nil => simp [splitAtNL]
  | cons x t ih =>
    by_cases hx : x = 10
    · subst hx; simp [splitAtNL]
    · have hmap : ((splitAtNL t).map (fun p => (x :: p.1, p.2)) = none) ↔
          splitAtNL t = none := by
        cases splitAtNL t <;> simp
      simp only [splitAtNL, if_neg hx]
      rw [hmap, ih]
      constructor
      · intro h hmem
        rcases List.mem_cons.mp hmem with h10 | h10
        · exact hx h10.symm
        · exact h h10
      · intro h hmem
        exact h (List.mem_cons_of_mem _ hmem)

theorem chunkLen_pos {o cap avail : Nat} (hcap : 1 ≤ cap)
    (havail : 1 ≤ avail) : 1 ≤ chunkLen o cap avail := by
  unfold chunkLen; omega

theorem chunkLen_le_avail (o cap avail : Nat) :
    chunkLen o cap avail ≤ avail := by
  unfold chunkLen; omega

theorem chunkLen_le_cap (o cap avail : Nat) :
    chunkLen o cap avail ≤ cap := by
  unfold chunkLen; omega

theorem nl_uniq {c d c' d' : Bytes} (hc : (10 : Nat) ∉ c)
    (hc' : (10 : Nat) ∉ c') (h : c ++ 10 :: d = c' ++ 10 :: d') :
    c = c' ∧ d = d' := by
  induction c generalizing c' with
  | nil =>
    cases c' with
    | nil => simpa using h
    | cons y t =>
      simp at h
      obtain ⟨h1, -⟩ := h
      exact absurd (h1 ▸ List.mem_cons_self y t) (h1 ▸ hc')
  | cons x t ih =>
    cases c' with
    | nil =>
      simp at h
      obtain ⟨h1, -⟩ := h
      exact absurd (h1 ▸ List.mem_cons_self x t) (h1 ▸ hc)
    | cons y t' =>
      simp only [List.cons_append, List.cons.injEq] at h
      obtain ⟨h1, h2⟩ := h
      have := ih (fun hm => hc (List.mem_cons_of_mem _ hm))
        (fun hm => hc' (List.mem_cons_of_mem _ hm)) h2
      exact ⟨by rw [h1, this.1], this.2⟩

/-! ## Specifications of the accumulation loops -/

theorem fillTo_complete :
    ∀ (fuel : Nat) (capped : Bool) (need : Nat) (buffer rest : Bytes)
      (oracle : List Nat),
    rest.length < fuel → need ≤ buffer.length + rest.length →
    ∃ b r o, fillTo fuel capped need buffer rest oracle = (true, b, r, o) ∧
      b ++ r = buffer ++ rest ∧ need ≤ b.length ∧
      r.length ≤ rest.length := by
  intro fuel
  induction fuel with
  | zero => intro capped need buffer rest oracle hf _; omega
  | succ f ih =>
    intro capped need buffer rest oracle hf htot
    by_cases hb : need ≤ buffer.length
    · cases rest with
      | nil =>
        refine ⟨buffer, [], oracle, ?_, rfl, hb, le_rfl⟩
        simp [fillTo, hb]
      | cons r0 rtl =>
        refine ⟨buffer, r0 :: rtl, oracle, ?_, rfl, hb, le_rfl⟩
        simp [fillTo, hb]
    · cases rest with
      | nil => simp at htot; omega
      | cons r0 rtl =>
        have hcap1 : 1 ≤ (if capped then
            min RECV_BUFFER (need - buffer.length) else RECV_BUFFER) := by
          cases capped <;> (simp [RECV_BUFFER]; try omega)
        have hk1 : 1 ≤ chunkLen (oracle.headD RECV_BUFFER)
            (if capped then min RECV_BUFFER (need - buffer.length)
              else RECV_BUFFER) (r0 :: rtl).length :=
          chunkLen_pos hcap1 (by simp)
        have hk2 : chunkLen (oracle.headD RECV_BUFFER)
            (if capped then min RECV_BUFFER (need - buffer.length)
              else RECV_BUFFER) (r0 :: rtl).length ≤ (r0 :: rtl).length :=
          chunkLen_le_avail _ _ _
        set k := chunkLen (oracle.headD RECV_BUFFER)
            (if capped then min RECV_BUFFER (need - buffer.length)
              else RECV_BUFFER) (r0 :: rtl).length with hkdef
        obtain ⟨b, r, o, heq, hcat, hneed, hrle⟩ :=
          ih capped need (buffer ++ (r0 :: rtl).take k)
            ((r0 :: rtl).drop k) oracle.tail
            (by simp at hf ⊢; omega)
            (by simp at htot ⊢; omega)
        refine ⟨b, r, o, ?_, ?_, hneed, ?_⟩
        · rw [show fillTo (f + 1) capped need buffer (r0 :: rtl) oracle =
            fillTo f capped need (buffer ++ (r0 :: rtl).take k)
              ((r0 :: rtl).drop k) oracle.tail by
            simp [fillTo, hb, hkdef]]
          exact heq
        · rw [hcat, List.append_assoc, List.take_append_drop]
        · calc r.length ≤ ((r0 :: rtl).drop k).length := hrle
            _ ≤ (r0 :: rtl).length := by simp

theorem drainTo_complete :
    ∀ (fuel remaining : Nat) (acc rest : Bytes) (oracle : List Nat),
    rest.length < fuel → remaining ≤ rest.length →
    ∃ o, drainTo fuel remaining acc rest oracle =
      (acc ++ rest.take remaining, true, rest.drop remaining, o) := by
  intro fuel
  induction fuel with
  | zero => intro remaining acc rest oracle hf _; omega
  | succ f ih =>
    intro remaining acc rest oracle hf hrem
    by_cases hr : remaining = 0
    · subst hr
      cases rest with
      | nil => exact ⟨oracle, by simp [drainTo]⟩
      | cons r0 rtl => exact ⟨oracle, by simp [drainTo]⟩
    · cases rest with
      | nil => simp at hrem; omega
      | cons r0 rtl =>
        have hk1 : 1 ≤ chunkLen (oracle.headD RECV_BUFFER)
            (min RECV_BUFFER remaining) (r0 :: rtl).length :=
          chunkLen_pos (by simp [RECV_BUFFER]; omega) (by simp)
        have hkcap : chunkLen (oracle.headD RECV_BUFFER)
            (min RECV_BUFFER remaining) (r0 :: rtl).length ≤ remaining :=
          le_trans (chunkLen_le_cap _ _ _) (min_le_right _ _)
        have hk2 : chunkLen (oracle.headD RECV_BUFFER)
            (min RECV_BUFFER remaining) (r0 :: rtl).length ≤
              (r0 :: rtl).length :=
          chunkLen_le_avail _ _ _
        set k := chunkLen (oracle.headD RECV_BUFFER)
            (min RECV_BUFFER remaining) (r0 :: rtl).length with hkdef
        obtain ⟨o, heq⟩ := ih (remaining - k)
          (acc ++ (r0 :: rtl).take k) ((r0 :: rtl).drop k) oracle.tail
          (by simp at hf ⊢; omega)
          (by simp at hrem ⊢; omega)
        refine ⟨o, ?_⟩
        rw [show drainTo (f + 1) remaining acc (r0 :: rtl) oracle =
          drainTo f (remaining - k) (acc ++ (r0 :: rtl).take k)
            ((r0 :: rtl).drop k) oracle.tail by
          simp [drainTo, hr, hkdef]]
        rw [heq]
        have h1 : (acc ++ (r0 :: rtl).take k) ++
            ((r0 :: rtl).drop k).take (remaining - k) =
            acc ++ (r0 :: rtl).take remaining := by
          rw [List.append_assoc, ← List.take_add]
          congr 2
          omega
        have h2 : ((r0 :: rtl).drop k).drop (remaining - k) =
            (r0 :: rtl).drop remaining := by
          rw [List.drop_drop]
          congr 1
          omega
        rw [h1, h2]

theorem drainTo_incomplete :
    ∀ (fuel remaining : Nat) (acc rest : Bytes) (oracle : List Nat),
    rest.length < fuel → rest.length < remaining →
    ∃ o, drainTo fuel remaining acc rest oracle =
      (acc ++ rest, false, [], o) := by
  intro fuel
  induction fuel with
  | zero => intro remaining acc rest oracle hf _; omega
  | succ f ih =>
    intro remaining acc rest oracle hf hrem
    have hr : remaining ≠ 0 := by omega
    cases rest with
    | nil => exact ⟨oracle, by simp [drainTo, hr]⟩
    | cons r0 rtl =>
      have hk1 : 1 ≤ chunkLen (oracle.headD RECV_BUFFER)
          (min RECV_BUFFER remaining) (r0 :: rtl).length :=
        chunkLen_pos (by simp [RECV_BUFFER]; omega) (by simp)
      have hkcap : chunkLen (oracle.headD RECV_BUFFER)
          (min RECV_BUFFER remaining) (r0 :: rtl).length ≤ remaining :=
        le_trans (chunkLen_le_cap _ _ _) (min_le_right _ _)
      have hk2 : chunkLen (oracle.headD RECV_BUFFER)
          (min RECV_BUFFER remaining) (r0 :: rtl).length ≤
            (r0 :: rtl).length :=
        chunkLen_le_avail _ _ _
      set k := chunkLen (oracle.headD RECV_BUFFER)
          (min RECV_BUFFER remaining) (r0 :: rtl).length with hkdef
      obtain ⟨o, heq⟩ := ih (remaining - k)
        (acc ++ (r0 :: rtl).take k) ((r0 :: rtl).drop k) oracle.tail
        (by simp at hf ⊢; omega)
        (by rw [List.length_drop]; omega)
      refine ⟨o, ?_⟩
      rw [show drainTo (f + 1) remaining acc (r0 :: rtl) oracle =
        drainTo f (remaining - k) (acc ++ (r0 :: rtl).take k)
          ((r0 :: rtl).drop k) oracle.tail by
        simp [drainTo, hr, hkdef]]
      rw [heq, List.append_assoc, List.take_append_drop]

theorem fillLine_spec :
    ∀ (fuel : Nat) (buffer rest : Bytes) (oracle : List Nat) (c d : Bytes),
    rest.length < fuel → buffer ++ rest = c ++ 10 :: d → (10 : Nat) ∉ c →
    ∃ m r o, fillLine fuel buffer rest oracle = some (c, m, r, o) ∧
      m ++ r = d ∧ r.length ≤ rest.length := by
  intro fuel
  induction fuel with
  | zero => intro buffer rest oracle c d hf _ _; omega
  | succ f ih =>
    intro buffer rest oracle c d hf hcat hc
    match hsp : splitAtNL buffer with
    | some (l, b) =>
      obtain ⟨hbuf, hnl⟩ := splitAtNL_eq_some hsp
      have hline : l ++ 10 :: (b ++ rest) = c ++ 10 :: d := by
        rw [← hcat, hbuf]
        simp
      obtain ⟨hl, hd⟩ := nl_uniq hnl hc hline
      subst hl
      refine ⟨b, rest, oracle, ?_, hd, le_rfl⟩
      cases rest with
      | nil => simp [fillLine, hsp]
      | cons r0 rtl => simp [fillLine, hsp]
    | none =>
      have hnb : (10 : Nat) ∉ buffer := splitAtNL_eq_none.mp hsp
      cases rest with
      | nil =>
        exfalso
        apply hnb
        rw [show buffer = buffer ++ [] by simp, hcat]
        exact List.mem_append_right _ (List.mem_cons_self _ _)
      | cons r0 rtl =>
        have hk2 : chunkLen (oracle.headD RECV_BUFFER) RECV_BUFFER
            (r0 :: rtl).length ≤ (r0 :: rtl).length :=
          chunkLen_le_avail _ _ _
        have hk1 : 1 ≤ chunkLen (oracle.headD RECV_BUFFER) RECV_BUFFER
            (r0 :: rtl).length :=
          chunkLen_pos (by simp [RECV_BUFFER]) (by simp)
        set k := chunkLen (oracle.headD RECV_BUFFER) RECV_BUFFER
            (r0 :: rtl).length with hkdef
        obtain ⟨m, r, o, heq, hd, hrle⟩ :=
          ih (buffer ++ (r0 :: rtl).take k) ((r0 :: rtl).drop k)
            oracle.tail c d
            (by simp at hf ⊢; omega)
            (by rw [List.append_assoc, List.take_append_drop]; exact hcat)
            hc
        refine ⟨m, r, o, ?_, hd, ?_⟩
        · rw [show fillLine (f + 1) buffer (r0 :: rtl) oracle =
            fillLine f (buffer ++ (r0 :: rtl).take k) ((r0 :: rtl).drop k)
              oracle.tail by
            simp [fillLine, hsp, hkdef]]
          exact heq
        · calc r.length ≤ ((r0 :: rtl).drop k).length := hrle
            _ ≤ (r0 :: rtl).length := by simp

/-! ## The reader loop on well-formed message streams -/

theorem renderAll_cons (it : Item) (its : List Item) :
    renderAll (it :: its) = renderItem it ++ renderAll its := by
  simp [renderAll]

theorem eventsAll_cons (it : Item) (its : List Item) :
    eventsAll (it :: its) = itemEvents it ++ eventsAll its := by
  simp [eventsAll]

theorem nl_mem_renderItem (it : Item) : (10 : Nat) ∈ renderItem it := by
  cases it with
  | line l => simp [renderItem]
  | frame p => simp [renderItem]
  | badFrame s => simp [renderItem]

theorem strip_FRAME : stripBytes FRAME_B = FRAME_B := by decide

theorem upper_FRAME : upperBytes FRAME_B = FRAME_B := by decide

theorem nl_not_mem_FRAME : (10 : Nat) ∉ FRAME_B := by decide

theorem max_image_lt : MAX_IMAGE_SIZE < 256 ^ 8 := by
  norm_num [MAX_IMAGE_SIZE]

theorem take_len_app' {a : Bytes} (b : Bytes) {n : Nat}
    (h : a.length = n) : (a ++ b).take n = a := by
  subst h; exact take_len_app a b

theorem drop_len_app' {a : Bytes} (b : Bytes) {n : Nat}
    (h : a.length = n) : (a ++ b).drop n = b := by
  subst h; exact drop_len_app a b

/-- Rank used in the loop measure: processing buffered lines sits
above waiting for data. -/
theorem utf8Go_ascii :
    ∀ (fuel : Nat) (l : Bytes), l.length < fuel →
    (∀ b ∈ l, b < 128) → utf8Go fuel l = l := by
  intro fuel
  induction fuel with
  | zero =>
    intro l hl _
    omega
  | succ f ih =>
    intro l hl h
    cases l with
    | nil => rfl
    | cons b t =>
      have hb : b < 128 := h b (List.mem_cons_self b t)
      have ht := ih t (by simp at hl ⊢; omega)
        (fun x hx => h x (List.mem_cons_of_mem b hx))
      simp [utf8Go, hb, ht]

/-- On ASCII bytes, `decode('utf-8', errors='ignore')` is the
identity. -/
theorem utf8DecodeIgnore_ascii (l : Bytes) (h : ∀ b ∈ l, b < 128) :
    utf8DecodeIgnore l = l :=
  utf8Go_ascii (l.length + 1) l (by omega) h

/-- Below 128, the Unicode whitespace predicate is the ASCII one. -/
theorem isSpace_agree : ∀ b : Nat, b < 128 → pyIsSpaceCp b = isSpaceByte b := by
  decide

theorem mem_dropWhile_imp {α : Type} (p : α → Bool) :
    ∀ (l : List α) (a : α), a ∈ l.dropWhile p → a ∈ l := by
  intro l
  induction l with
  | nil =>
    intro a h
    simp at h
  | cons b t ih =>
    intro a h
    rw [List.dropWhile_cons] at h
    by_cases hb : p b = true
    · rw [if_pos hb] at h
      exact List.mem_cons_of_mem b (ih a h)
    · rw [if_neg hb] at h
      exact h

theorem dropWhile_space_agree :
    ∀ l : Bytes, (∀ b ∈ l, b < 128) →
    l.dropWhile pyIsSpaceCp = l.dropWhile isSpaceByte := by
  intro l
  induction l with
  | nil =>
    intro _
    rfl
  | cons b t ih =>
    intro h
    have hb : b < 128 := h b (List.mem_cons_self b t)
    rw [List.dropWhile_cons, List.dropWhile_cons, isSpace_agree b hb]
    cases hsp : isSpaceByte b with
    | true => simp [hsp, ih (fun x hx => h x (List.mem_cons_of_mem b hx))]
    | false => simp [hsp]

/-- On ASCII data, Python `str.strip()` is the ASCII strip. -/
theorem pyStrip_ascii (l : Bytes) (h : ∀ b ∈ l, b < 128) :
    pyStrip l = stripBytes l := by
  unfold pyStrip stripBytes
  rw [dropWhile_space_agree l h,
    dropWhile_space_agree ((l.dropWhile isSpaceByte).reverse)
      (fun b hb =>
        h b (mem_dropWhile_imp _ l b (List.mem_reverse.mp hb)))]

/-- On an ASCII line, the decoded-and-stripped header of the reader
loop is the byte-level strip. -/
theorem headerOf_ascii (l : Bytes) (h : ∀ b ∈ l, b < 128) :
    pyStrip (utf8DecodeIgnore l) = stripBytes l := by
  rw [utf8DecodeIgnore_ascii l h, pyStrip_ascii l h]

theorem decode_FRAME : pyStrip (utf8DecodeIgnore FRAME_B) = FRAME_B := by
  decide

theorem decode_FILE : pyStrip (utf8DecodeIgnore FILE_B) = FILE_B := by
  decide

def phaseRank : Phase → Nat
  | Phase.recv => 1
  | Phase.lines => 2

/-- Master correctness lemma for the admin reader loop on streams of
command lines and (valid or size-rejected) frames: whatever the
chunking oracle, the loop emits exactly the canonical events of the
message sequence, in order, followed by the peer-close event.  The
measure `buffer + 3·rest + rank` strictly decreases at every
iteration, so the stated fuel bound suffices. -/
theorem runLoop_render (fm : Bytes → Option Bytes) (dn : Bytes) :
    ∀ (fuel : Nat) (ph : Phase) (buffer rest : Bytes) (oracle : List Nat)
      (items : List Item),
    ItemsOK items → buffer ++ rest = renderAll items →
    (ph = Phase.recv → (10 : Nat) ∉ buffer) →
    buffer.length + 3 * rest.length + phaseRank ph < fuel →
    runLoop fm dn fuel ph buffer rest oracle =
      eventsAll items ++ [AEv.peerClosed] := by
  intro fuel
  induction fuel with
  | zero => intro ph buffer rest oracle items _ _ _ hmeas; omega
  | succ f ih =>
    intro ph buffer rest oracle items hok hcat hnl hmeas
    cases ph with
    | recv =>
      cases rest with
      | nil =>
        have hbuf : buffer = renderAll items := by simpa using hcat
        have hitems : items = [] := by
          cases items with
          | nil => rfl
          | cons it its =>
            exfalso
            apply hnl rfl
            rw [hbuf, renderAll_cons]
            exact List.mem_append_left _ (nl_mem_renderItem it)
        subst hitems
        have hbe : buffer = [] := by simpa [renderAll] using hbuf
        subst hbe
        simp [runLoop, eventsAll]
      | cons r0 rtl =>
        have hk1 : 1 ≤ chunkLen (oracle.headD RECV_BUFFER) RECV_BUFFER
            (r0 :: rtl).length :=
          chunkLen_pos (by simp [RECV_BUFFER]) (by simp)
        have hk2 : chunkLen (oracle.headD RECV_BUFFER) RECV_BUFFER
            (r0 :: rtl).length ≤ (r0 :: rtl).length :=
          chunkLen_le_avail _ _ _
        set k := chunkLen (oracle.headD RECV_BUFFER) RECV_BUFFER
            (r0 :: rtl).length with hkdef
        rw [show runLoop fm dn (f + 1) Phase.recv buffer (r0 :: rtl) oracle =
          runLoop fm dn f Phase.lines (buffer ++ (r0 :: rtl).take k)
            ((r0 :: rtl).drop k) oracle.tail by
          rw [hkdef]; simp [runLoop]]
        apply ih Phase.lines _ _ oracle.tail items hok
        · rw [List.append_assoc, List.take_append_drop]; exact hcat
        · intro h; exact absurd h (by simp)
        · have hlt : ((r0 :: rtl).take k).length = k := by
            rw [List.length_take]; omega
          have hld : ((r0 :: rtl).drop k).length = (r0 :: rtl).length - k := by
            rw [List.length_drop]
          simp only [List.length_append, hlt, hld, phaseRank] at hmeas ⊢
          omega
    | lines =>
      cases hsp : splitAtNL buffer with
      | none =>
        rw [show runLoop fm dn (f + 1) Phase.lines buffer rest oracle =
          runLoop fm dn f Phase.recv buffer rest oracle by
          simp [runLoop, hsp]]
        apply ih Phase.recv buffer rest oracle items hok hcat
          (fun _ => splitAtNL_eq_none.mp hsp)
        simp only [phaseRank] at hmeas ⊢
        omega
      | some p =>
        obtain ⟨line, buf⟩ := p
        obtain ⟨hbuf, hlnl⟩ := splitAtNL_eq_some hsp
        cases items with
        | nil =>
          exfalso
          have : buffer = [] ∧ rest = [] := by
            have := hcat
            simp [renderAll] at this
            exact this
          rw [this.1] at hsp
          simp [splitAtNL] at hsp
        | cons it its =>
          have hokit : itemOK it := hok it (List.mem_cons_self _ _)
          have hokits : ItemsOK its :=
            fun x hx => hok x (List.mem_cons_of_mem _ hx)
          have hbl : buffer.length = line.length + 1 + buf.length := by
            rw [hbuf]; simp; omega
          cases it with
          | line l =>
            obtain ⟨hascii, hlnl2, hnf, hnfi, hnfb⟩ := hokit
            have hcat2 : line ++ 10 :: (buf ++ rest) =
                l ++ 10 :: renderAll its := by
              rw [← List.cons_append, ← List.append_assoc, ← hbuf, hcat,
                renderAll_cons]
              simp [renderItem]
            obtain ⟨hline, hrest⟩ := nl_uniq hlnl hlnl2 hcat2
            subst hline
            by_cases hhe : stripBytes line = []
            · rw [show runLoop fm dn (f + 1) Phase.lines buffer rest oracle =
                runLoop fm dn f Phase.lines buf rest oracle by
                simp only [runLoop, hsp]
                rw [headerOf_ascii line hascii, if_pos hhe]]
              rw [eventsAll_cons,
                show itemEvents (Item.line line) = [] by
                  simp [itemEvents, hhe],
                List.nil_append]
              apply ih Phase.lines buf rest oracle its hokits hrest
                (by intro h; exact absurd h (by simp))
              simp only [phaseRank] at hmeas ⊢
              omega
            · rw [show runLoop fm dn (f + 1) Phase.lines buffer rest oracle =
                dispatchOf (stripBytes line) ++
                  runLoop fm dn f Phase.lines buf rest oracle by
                simp only [runLoop, hsp]
                rw [headerOf_ascii line hascii, if_neg hhe, if_neg hnf,
                  if_neg (by rw [not_or]; exact ⟨hnfb, hnfi⟩)]]
              rw [eventsAll_cons,
                show itemEvents (Item.line line) = dispatchOf (stripBytes line)
                  by simp [itemEvents, hhe],
                List.append_assoc]
              congr 1
              apply ih Phase.lines buf rest oracle its hokits hrest
                (by intro h; exact absurd h (by simp))
              simp only [phaseRank] at hmeas ⊢
              omega
          | frame p =>
            obtain ⟨hp0, hpmax⟩ := hokit
            have hplt : p.length < 256 ^ 8 := lt_of_le_of_lt hpmax max_image_lt
            have hcat2 : line ++ 10 :: (buf ++ rest) =
                FRAME_B ++ 10 :: (beBytes 8 p.length ++ (p ++ renderAll its)) := by
              rw [← List.cons_append, ← List.append_assoc, ← hbuf, hcat,
                renderAll_cons]
              simp [renderItem]
            obtain ⟨hline, hrest⟩ := nl_uniq hlnl nl_not_mem_FRAME hcat2
            subst hline
            have hlen8 : (beBytes 8 p.length).length = 8 := beBytes_length 8 _
            have htot : 8 ≤ buf.length + rest.length := by
              have := congrArg List.length hrest
              simp [hlen8] at this
              omega
            obtain ⟨b1, r1, o1, heq1, hcat1, h8, hr1⟩ :=
              fillTo_complete (rest.length + 1) false 8 buf rest oracle
                (by omega) htot
            have htk : b1.take 8 = beBytes 8 p.length := by
              rw [← take_app_of_le r1 h8, hcat1, hrest]
              exact take_len_app' _ hlen8
            have hsz : parseBe (b1.take 8) = p.length := by
              rw [htk]; exact parseBe_beBytes 8 _ hplt
            have hb2 : b1.drop 8 ++ r1 = p ++ renderAll its := by
              rw [← drop_app_of_le r1 h8, hcat1, hrest]
              exact drop_len_app' _ hlen8
            have htot2 : p.length ≤ (b1.drop 8).length + r1.length := by
              have hlb := congrArg List.length hb2
              simp only [List.length_append, List.length_drop] at hlb ⊢
              omega
            obtain ⟨b3, r3, o3, heq3, hcat3, hp3, hr3⟩ :=
              fillTo_complete (r1.length + 1) true p.length (b1.drop 8) r1 o1
                (by omega) htot2
            have htkp : b3.take p.length = p := by
              rw [← take_app_of_le r3 hp3, hcat3, hb2]
              exact take_len_app' _ rfl
            have hdropp : b3.drop p.length ++ r3 = renderAll its := by
              rw [← drop_app_of_le r3 hp3, hcat3, hb2]
              exact drop_len_app' _ rfl
            rw [show runLoop fm dn (f + 1) Phase.lines buffer rest oracle =
              AEv.frame (b3.take p.length) ::
                runLoop fm dn f Phase.lines (b3.drop p.length) r3 o3 by
              simp only [runLoop, hsp]
              rw [if_neg (by rw [decode_FRAME]; decide), decode_FRAME,
                if_pos upper_FRAME, heq1]
              simp only [hsz]
              rw [if_neg (by push_neg; exact ⟨hp0, hpmax⟩), heq3]]
            rw [htkp, eventsAll_cons,
              show itemEvents (Item.frame p) = [AEv.frame p] from rfl]
            simp only [List.cons_append, List.nil_append]
            congr 1
            apply ih Phase.lines _ _ o3 its hokits hdropp
              (by intro h; exact absurd h (by simp))
            · have hfb : FRAME_B.length = 5 := rfl
              have e1 := congrArg List.length hcat1
              have e2 := congrArg List.length hcat3
              have e3 := congrArg List.length hrest
              have e4 := congrArg List.length hdropp
              simp only [List.length_append, List.length_drop,
                List.length_cons, hlen8] at e1 e2 e3 e4
              simp only [List.length_drop, phaseRank] at hmeas ⊢
              rw [hbl, hfb] at hmeas
              omega
          | badFrame s =>
            obtain ⟨hsbad, hslt⟩ := hokit
            have hcat2 : line ++ 10 :: (buf ++ rest) =
                FRAME_B ++ 10 :: (beBytes 8 s ++ renderAll its) := by
              rw [← List.cons_append, ← List.append_assoc, ← hbuf, hcat,
                renderAll_cons]
              simp [renderItem]
            obtain ⟨hline, hrest⟩ := nl_uniq hlnl nl_not_mem_FRAME hcat2
            subst hline
            have hlen8 : (beBytes 8 s).length = 8 := beBytes_length 8 _
            have htot : 8 ≤ buf.length + rest.length := by
              have := congrArg List.length hrest
              simp [hlen8] at this
              omega
            obtain ⟨b1, r1, o1, heq1, hcat1, h8, hr1⟩ :=
              fillTo_complete (rest.length + 1) false 8 buf rest oracle
                (by omega) htot
            have htk : b1.take 8 = beBytes 8 s := by
              rw [← take_app_of_le r1 h8, hcat1, hrest]
              exact take_len_app' _ hlen8
            have hsz : parseBe (b1.take 8) = s := by
              rw [htk]
              exact parseBe_beBytes 8 _ (by
                have h264 : (256 : Nat) ^ 8 = 2 ^ 64 := by norm_num
                omega)
            have hb2 : b1.drop 8 ++ r1 = renderAll its := by
              rw [← drop_app_of_le r1 h8, hcat1, hrest]
              exact drop_len_app' _ hlen8
            rw [show runLoop fm dn (f + 1) Phase.lines buffer rest oracle =
              AEv.badFrameSize s ::
                runLoop fm dn f Phase.lines (b1.drop 8) r1 o1 by
              simp only [runLoop, hsp]
              rw [if_neg (by rw [decode_FRAME]; decide), decode_FRAME,
                if_pos upper_FRAME, heq1]
              simp only [hsz]
              rw [if_pos (show s ≤ 0 ∨ MAX_IMAGE_SIZE < s by omega)]]
            rw [eventsAll_cons,
              show itemEvents (Item.badFrame s) = [AEv.badFrameSize s] from
                rfl]
            simp only [List.cons_append, List.nil_append]
            congr 1
            apply ih Phase.lines _ _ o1 its hokits hb2
              (by intro h; exact absurd h (by simp))
            · have hfb : FRAME_B.length = 5 := rfl
              have e1 := congrArg List.length hcat1
              have e3 := congrArg List.length hrest
              simp only [List.length_append, List.length_cons,
                hlen8] at e1 e3
              simp only [List.length_drop, phaseRank] at hmeas ⊢
              rw [hbl, hfb] at hmeas
              omega

/-! ## Behaviour of the admin file receiver -/

theorem splitAtNL_append (c d : Bytes) (hc : (10 : Nat) ∉ c) :
    splitAtNL (c ++ 10 :: d) = some (c, d) := by
  induction c with
  | nil => simp [splitAtNL]
  | cons x t ih =>
    have hx : x ≠ 10 := fun h => hc (h ▸ List.mem_cons_self x t)
    have ht : (10 : Nat) ∉ t := fun h => hc (List.mem_cons_of_mem _ h)
    simp [splitAtNL, hx, ih ht]

theorem max_file_lt : MAX_FILE_SIZE < 256 ^ 8 := by
  norm_num [MAX_FILE_SIZE]

theorem take_app_add (a b : Bytes) (n : Nat) :
    (a ++ b).take (a.length + n) = a ++ b.take n := by
  rw [List.take_add, take_len_app, drop_len_app]

/-- Successful upload: whenever the stream carries a newline-terminated
metadata line, an in-range declared size `S` and at least `S` further
bytes, the receiver completes, and the content written is exactly the
first `S` bytes following the size prefix — no matter how the stream
is split between the already-buffered part, the chunks, and any excess
bytes `E`. -/
theorem receive_file_ok (fm : Bytes → Option Bytes) (dn : Bytes)
    (metaLine D E buffer rest : Bytes) (S : Nat) (oracle : List Nat)
    (hml : (10 : Nat) ∉ metaLine) (hS : S ≤ MAX_FILE_SIZE)
    (hD : D.length = S)
    (hcat : buffer ++ rest = metaLine ++ 10 :: (beBytes 8 S ++ (D ++ E))) :
    ∃ r o, receive_file_from_buffer fm dn buffer rest oracle =
      ⟨[FileEv.receiving (fnameOfMeta fm dn metaLine),
        FileEv.received (fnameOfMeta fm dn metaLine)],
        some (fnameOfMeta fm dn metaLine, D), false, r, o⟩ ∧
      r.length ≤ rest.length := by
  have hSlt : S < 256 ^ 8 := lt_of_le_of_lt hS max_file_lt
  have hlen8 : (beBytes 8 S).length = 8 := beBytes_length 8 _
  obtain ⟨m, r1, o1, hfl, hm, hr1⟩ :=
    fillLine_spec (rest.length + 1) buffer rest oracle metaLine
      (beBytes 8 S ++ (D ++ E)) (by omega) hcat hml
  have htot : 8 ≤ m.length + r1.length := by
    have := congrArg List.length hm
    simp [hlen8] at this
    omega
  obtain ⟨b2, r2, o2, hft, hcat2, h8, hr2⟩ :=
    fillTo_complete (r1.length + 1) false 8 m r1 o1 (by omega) htot
  have htk : b2.take 8 = beBytes 8 S := by
    rw [← take_app_of_le r2 h8, hcat2, hm]
    exact take_len_app' _ hlen8
  have hsz : parseBe (b2.take 8) = S := by
    rw [htk]; exact parseBe_beBytes 8 _ hSlt
  have hb3 : b2.drop 8 ++ r2 = D ++ E := by
    rw [← drop_app_of_le r2 h8, hcat2, hm]
    exact drop_len_app' _ hlen8
  have hlb3 : (b2.drop 8).length + r2.length = S + E.length := by
    have := congrArg List.length hb3
    simp only [List.length_append] at this
    omega
  unfold receive_file_from_buffer
  simp only [hfl, hft, hsz]
  rw [if_neg (by push_neg; exact ⟨by omega, hS⟩)]
  by_cases hbs : S ≤ (b2.drop 8).length
  · have htw : min (b2.drop 8).length S = S := by omega
    obtain ⟨o, hdr⟩ := drainTo_complete (r2.length + 1) 0 []
      r2 o2 (by omega) (by omega)
    rw [htw]
    simp only [Nat.sub_self, hdr]
    have hcontent : (b2.drop 8).take S = D := by
      rw [← take_app_of_le r2 hbs, hb3]
      exact take_len_app' _ hD
    refine ⟨r2.drop 0, o, ?_, ?_⟩
    · simp only [List.take_zero, List.append_nil, List.nil_append, hcontent]
    · simp only [List.drop_zero]
      exact le_trans hr2 hr1
  · have htw : min (b2.drop 8).length S = (b2.drop 8).length := by omega
    have hrem : S - (b2.drop 8).length ≤ r2.length := by omega
    obtain ⟨o, hdr⟩ := drainTo_complete (r2.length + 1)
      (S - (b2.drop 8).length) [] r2 o2 (by omega) hrem
    rw [htw]
    simp only [hdr]
    have h1 : b2.drop 8 ++ r2.take (S - (b2.drop 8).length) = D := by
      have h2 := take_app_add (b2.drop 8) r2 (S - (b2.drop 8).length)
      rw [show (b2.drop 8).length + (S - (b2.drop 8).length) = S by
        omega] at h2
      rw [← h2, hb3]
      exact take_len_app' _ hD
    refine ⟨r2.drop (S - (b2.drop 8).length), o, ?_, ?_⟩
    · simp only [List.take_length, List.nil_append, h1]
    · have hdl : (r2.drop (S - (b2.drop 8).length)).length ≤ r2.length := by
        simp
      exact le_trans hdl (le_trans hr2 hr1)

/-- Oversize upload: a declared size above 10 GiB is rejected with a
warning; no file and no temporary are left, and the routine returns
(the connection stays up). -/
theorem receive_file_reject (fm : Bytes → Option Bytes) (dn : Bytes)
    (metaLine tail buffer rest : Bytes) (S : Nat) (oracle : List Nat)
    (hml : (10 : Nat) ∉ metaLine) (hS : MAX_FILE_SIZE < S)
    (hS64 : S < 2 ^ 64)
    (hcat : buffer ++ rest = metaLine ++ 10 :: (beBytes 8 S ++ tail)) :
    ∃ r o, receive_file_from_buffer fm dn buffer rest oracle =
      ⟨[FileEv.invalidSize S], none, false, r, o⟩ ∧
      r.length ≤ rest.length := by
  have hSlt : S < 256 ^ 8 := by
    have h264 : (256 : Nat) ^ 8 = 2 ^ 64 := by norm_num
    omega
  have hlen8 : (beBytes 8 S).length = 8 := beBytes_length 8 _
  obtain ⟨m, r1, o1, hfl, hm, hr1⟩ :=
    fillLine_spec (rest.length + 1) buffer rest oracle metaLine
      (beBytes 8 S ++ tail) (by omega) hcat hml
  have htot : 8 ≤ m.length + r1.length := by
    have := congrArg List.length hm
    simp [hlen8] at this
    omega
  obtain ⟨b2, r2, o2, hft, hcat2, h8, hr2⟩ :=
    fillTo_complete (r1.length + 1) false 8 m r1 o1 (by omega) htot
  have htk : b2.take 8 = beBytes 8 S := by
    rw [← take_app_of_le r2 h8, hcat2, hm]
    exact take_len_app' _ hlen8
  have hsz : parseBe (b2.take 8) = S := by
    rw [htk]; exact parseBe_beBytes 8 _ hSlt
  unfold receive_file_from_buffer
  simp only [hfl, hft, hsz]
  rw [if_pos (Or.inr hS)]
  exact ⟨r2, o2, rfl, le_trans hr2 hr1⟩

/-- Failed upload: when the connection ends before the declared size
is reached, the `except` branch logs the failure and removes the
temporary; no final file appears, and the routine returns without
closing the connection itself. -/
theorem receive_file_err (fm : Bytes → Option Bytes) (dn : Bytes)
    (metaLine D buffer rest : Bytes) (S : Nat) (oracle : List Nat)
    (hml : (10 : Nat) ∉ metaLine) (hS : S ≤ MAX_FILE_SIZE)
    (hD : D.length < S)
    (hcat : buffer ++ rest = metaLine ++ 10 :: (beBytes 8 S ++ D)) :
    ∃ o, receive_file_from_buffer fm dn buffer rest oracle =
      ⟨[FileEv.receiving (fnameOfMeta fm dn metaLine), FileEv.error],
        none, false, [], o⟩ := by
  have hSlt : S < 256 ^ 8 := lt_of_le_of_lt hS max_file_lt
  have hlen8 : (beBytes 8 S).length = 8 := beBytes_length 8 _
  obtain ⟨m, r1, o1, hfl, hm, hr1⟩ :=
    fillLine_spec (rest.length + 1) buffer rest oracle metaLine
      (beBytes 8 S ++ D) (by omega) hcat hml
  have htot : 8 ≤ m.length + r1.length := by
    have := congrArg List.length hm
    simp [hlen8] at this
    omega
  obtain ⟨b2, r2, o2, hft, hcat2, h8, hr2⟩ :=
    fillTo_complete (r1.length + 1) false 8 m r1 o1 (by omega) htot
  have htk : b2.take 8 = beBytes 8 S := by
    rw [← take_app_of_le r2 h8, hcat2, hm]
    exact take_len_app' _ hlen8
  have hsz : parseBe (b2.take 8) = S := by
    rw [htk]; exact parseBe_beBytes 8 _ hSlt
  have hb3 : b2.drop 8 ++ r2 = D := by
    rw [← drop_app_of_le r2 h8, hcat2, hm]
    exact drop_len_app' _ hlen8
  have hlb3 : (b2.drop 8).length + r2.length = D.length := by
    have := congrArg List.length hb3
    simp only [List.length_append] at this
    omega
  unfold receive_file_from_buffer
  simp only [hfl, hft, hsz]
  rw [if_neg (by push_neg; exact ⟨by omega, hS⟩)]
  have htw : min (b2.drop 8).length S = (b2.drop 8).length := by omega
  obtain ⟨o, hdr⟩ := drainTo_incomplete (r2.length + 1)
    (S - (b2.drop 8).length) [] r2 o2 (by omega) (by omega)
  rw [htw]
  simp only [hdr]
  exact ⟨o, rfl⟩

/-! ## The reader loop around a file upload -/

theorem strip_FILE : stripBytes FILE_B = FILE_B := by decide

theorem upper_FILE : upperBytes FILE_B = FILE_B := by decide

theorem runLoop_recv_all (fm : Bytes → Option Bytes) (dn : Bytes)
    (f : Nat) (stream : Bytes) (hne : stream ≠ [])
    (hlen : stream.length ≤ RECV_BUFFER) :
    runLoop fm dn (f + 1) Phase.recv [] stream [] =
      runLoop fm dn f Phase.lines stream [] [] := by
  cases stream with
  | nil => exact absurd rfl hne
  | cons s0 stl =>
    have hk : chunkLen (([] : List Nat).headD RECV_BUFFER) RECV_BUFFER
        (s0 :: stl).length = (s0 :: stl).length := by
      simp only [List.headD]
      unfold chunkLen
      simp only [List.length_cons] at hlen ⊢
      omega
    simp only [runLoop, hk, List.take_length, List.drop_length,
      List.nil_append, List.tail_nil]

theorem runLoop_end (fm : Bytes → Option Bytes) (dn : Bytes) (f : Nat)
    (o : List Nat) : runLoop fm dn (f + 2) Phase.lines [] [] o =
      [AEv.peerClosed] := by
  simp [runLoop, splitAtNL]

/-- A complete file upload delivered in one chunk together with
trailing bytes: the upload is received, and the trailing bytes are
silently discarded (`buffer = b""` after the receiver returns), no
matter what messages they encode. -/
theorem runLoop_file_single (fm : Bytes → Option Bytes) (dn : Bytes)
    (metaLine D tail : Bytes) (S f : Nat)
    (hml : (10 : Nat) ∉ metaLine) (hS : S ≤ MAX_FILE_SIZE)
    (hD : D.length = S)
    (hlen : (FILE_B ++ 10 :: (metaLine ++ 10 ::
      (beBytes 8 S ++ (D ++ tail)))).length ≤ RECV_BUFFER) :
    reader_loop fm dn (f + 4)
      (FILE_B ++ 10 :: (metaLine ++ 10 :: (beBytes 8 S ++ (D ++ tail))))
      [] =
      [AEv.fileLog (FileEv.receiving (fnameOfMeta fm dn metaLine)),
       AEv.fileLog (FileEv.received (fnameOfMeta fm dn metaLine)),
       AEv.peerClosed] := by
  unfold reader_loop
  set rest2 := metaLine ++ 10 :: (beBytes 8 S ++ (D ++ tail)) with hrest2
  rw [runLoop_recv_all fm dn (f + 3) _ (by simp [FILE_B]) hlen]
  obtain ⟨r, o, hrf, hrl⟩ :=
    receive_file_ok fm dn metaLine D tail rest2 [] S [] hml hS hD
      (by rw [hrest2]; simp)
  have hr0 : r = [] := List.length_eq_zero.mp (by simpa using hrl)
  subst hr0
  rw [show runLoop fm dn (f + 3) Phase.lines (FILE_B ++ 10 :: rest2) [] [] =
    ((receive_file_from_buffer fm dn rest2 [] []).events.map AEv.fileLog)
      ++ runLoop fm dn (f + 2) Phase.lines []
        (receive_file_from_buffer fm dn rest2 [] []).rest
        (receive_file_from_buffer fm dn rest2 [] []).oracle by
    simp only [runLoop, splitAtNL_append FILE_B rest2 (by decide),
      decode_FILE]
    rw [if_neg (by decide), if_neg (by decide),
      if_pos (Or.inr upper_FILE)]]
  rw [hrf]
  simp only [List.map_cons, List.map_nil]
  rw [runLoop_end]
  rfl

/-! ## Claim theorems -/

/-- Claim C1 (corrected).  For streams made of ASCII command lines
and frames (including frames whose declared size is rejected), the
admin reader loop delivers every framed message exactly once, in
arrival order, under every chunking of the byte stream into `recv`
results — and the payload bytes following a rejected frame header are
processed as subsequent messages.  The lines are confined to ASCII
(`itemOK`) because on that domain the modelled
`decode('utf-8', errors='ignore').strip().upper()` classification
coincides with the program character for character, while beyond
ASCII `str.upper` follows the Unicode case table, which is not
modelled.  The original claim fails for the file-upload branch: the
loop clears its buffer after `_receive_file_from_buffer` returns, so
bytes already buffered beyond the declared file size are discarded
rather than processed (second conjunct: whatever `tail` follows a
completed one-chunk upload, the output is the same and contains no
event for `tail`). -/
theorem c1_ordered_delivery_amended :
    (∀ (fm : Bytes → Option Bytes) (dn : Bytes) (items : List Item)
       (oracle : List Nat) (fuel : Nat),
      ItemsOK items → 3 * (renderAll items).length + 2 ≤ fuel →
      reader_loop fm dn fuel (renderAll items) oracle =
        eventsAll items ++ [AEv.peerClosed]) ∧
    (∀ (fm : Bytes → Option Bytes) (dn : Bytes)
       (metaLine D tail : Bytes) (S f : Nat),
      (10 : Nat) ∉ metaLine → S ≤ MAX_FILE_SIZE → D.length = S →
      (FILE_B ++ 10 :: (metaLine ++ 10 ::
        (beBytes 8 S ++ (D ++ tail)))).length ≤ RECV_BUFFER →
      reader_loop fm dn (f + 4)
        (FILE_B ++ 10 :: (metaLine ++ 10 :: (beBytes 8 S ++ (D ++ tail))))
        [] =
        [AEv.fileLog (FileEv.receiving (fnameOfMeta fm dn metaLine)),
         AEv.fileLog (FileEv.received (fnameOfMeta fm dn metaLine)),
         AEv.peerClosed]) := by
  constructor
  · intro fm dn items oracle fuel hok hfuel
    exact runLoop_render fm dn fuel Phase.recv [] (renderAll items)
      oracle items hok (by simp) (fun _ => by simp)
      (by simp only [List.length_nil, phaseRank]; omega)
  · intro fm dn metaLine D tail S f hml hS hD hlen
    exact runLoop_file_single fm dn metaLine D tail S f hml hS hD hlen

/-- Witness for C1: a two-message stream (a command line, then a
frame) delivered with an adversarial chunking, and a concrete
one-chunk upload with a trailing byte. -/
theorem c1_ordered_delivery_witness :
    reader_loop (fun _ => none) [100] 100
      (renderAll [Item.line [104, 105], Item.frame [7, 8, 9]]) [1, 2, 4] =
      eventsAll [Item.line [104, 105], Item.frame [7, 8, 9]] ++
        [AEv.peerClosed] ∧
    reader_loop (fun _ => none) [100] 9
      (FILE_B ++ 10 :: ([109] ++ 10 :: (beBytes 8 1 ++ ([65] ++ [66]))))
      [] =
      [AEv.fileLog (FileEv.receiving (fnameOfMeta (fun _ => none)
        [100] [109])),
       AEv.fileLog (FileEv.received (fnameOfMeta (fun _ => none)
        [100] [109])),
       AEv.peerClosed] :=
  ⟨c1_ordered_delivery_amended.1 (fun _ => none) [100]
      [Item.line [104, 105], Item.frame [7, 8, 9]] [1, 2, 4] 100
      (by intro it hit; simp at hit
          rcases hit with h | h <;> subst h <;> simp [itemOK] <;> decide)
      (by decide),
    c1_ordered_delivery_amended.2 (fun _ => none) [100] [109] [65] [66] 1 5
      (by decide) (by decide) (by decide) (by decide)⟩

/-- Counterexample to C1 as stated: the single byte stream
`FILE \n m \n size=1 payload STATUS:A \n` processed in one `recv`
chunk loses the `STATUS:A` command (the buffer is cleared after the
upload), while the very same stream chunked at byte 16 delivers it —
so delivery is not exactly-once for every chunking. -/
theorem c1_counterexample :
    reader_loop (fun _ => none) [100] 50
      [70, 73, 76, 69, 10, 109, 10, 0, 0, 0, 0, 0, 0, 0, 1, 65,
       83, 84, 65, 84, 85, 83, 58, 65, 10] [] =
      [AEv.fileLog (FileEv.receiving [100]),
       AEv.fileLog (FileEv.received [100]), AEv.peerClosed] ∧
    reader_loop (fun _ => none) [100] 50
      [70, 73, 76, 69, 10, 109, 10, 0, 0, 0, 0, 0, 0, 0, 1, 65,
       83, 84, 65, 84, 85, 83, 58, 65, 10] [16] =
      [AEv.fileLog (FileEv.receiving [100]),
       AEv.fileLog (FileEv.received [100]),
       AEv.statusLog [83, 84, 65, 84, 85, 83, 58, 65],
       AEv.peerClosed] ∧
    AEv.statusLog [83, 84, 65, 84, 85, 83, 58, 65] ∉
      reader_loop (fun _ => none) [100] 50
        [70, 73, 76, 69, 10, 109, 10, 0, 0, 0, 0, 0, 0, 0, 1, 65,
         83, 84, 65, 84, 85, 83, 58, 65, 10] [] := by
  refine ⟨by decide, by decide, by decide⟩

/-- Claim C2 (confirmed).  Feeding `FRAME\n` + 8-byte big-endian
length + `p` to the admin reader loop, for `0 < |p| ≤ 200 MiB`,
produces exactly one frame callback carrying exactly `p`, under every
chunking; a declared length of 0 or above `MAX_IMAGE_SIZE` is
rejected with a logged warning and without closing the connection:
the bytes that follow (any well-formed continuation of ASCII command
lines and frames, per `itemOK`) are processed as further messages. -/
theorem c2_frame_roundtrip :
    (∀ (fm : Bytes → Option Bytes) (dn : Bytes) (p : Bytes)
       (oracle : List Nat) (fuel : Nat),
      0 < p.length → p.length ≤ MAX_IMAGE_SIZE →
      3 * (14 + p.length) + 2 ≤ fuel →
      reader_loop fm dn fuel (FRAME_B ++ [10] ++ beBytes 8 p.length ++ p)
        oracle = [AEv.frame p, AEv.peerClosed]) ∧
    (∀ (fm : Bytes → Option Bytes) (dn : Bytes) (s : Nat)
       (its : List Item) (oracle : List Nat) (fuel : Nat),
      (s = 0 ∨ MAX_IMAGE_SIZE < s) → s < 2 ^ 64 → ItemsOK its →
      3 * (14 + (renderAll its).length) + 2 ≤ fuel →
      reader_loop fm dn fuel
        (FRAME_B ++ [10] ++ beBytes 8 s ++ renderAll its) oracle =
        AEv.badFrameSize s :: (eventsAll its ++ [AEv.peerClosed])) := by
  constructor
  · intro fm dn p oracle fuel hp0 hpmax hfuel
    have hstream : FRAME_B ++ [10] ++ beBytes 8 p.length ++ p =
        renderAll [Item.frame p] := by
      simp [renderAll, renderItem]
    have hlen : (renderAll [Item.frame p]).length = 14 + p.length := by
      simp [renderAll, renderItem, FRAME_B, beBytes_length]
      omega
    rw [hstream]
    have h := runLoop_render fm dn fuel Phase.recv []
      (renderAll [Item.frame p]) oracle [Item.frame p]
      (by intro it hit; simp at hit; subst hit; exact ⟨hp0, hpmax⟩)
      (by simp) (fun _ => by simp)
      (by simp only [List.length_nil, phaseRank, hlen]; omega)
    rw [reader_loop, h]
    simp [eventsAll, itemEvents]
  · intro fm dn s its oracle fuel hbad hs64 hits hfuel
    have hstream : FRAME_B ++ [10] ++ beBytes 8 s ++ renderAll its =
        renderAll (Item.badFrame s :: its) := by
      simp [renderAll_cons, renderItem, renderAll]
    have hlen : (renderAll (Item.badFrame s :: its)).length =
        14 + (renderAll its).length := by
      simp [renderAll_cons, renderItem, FRAME_B, beBytes_length]
      omega
    rw [hstream]
    have h := runLoop_render fm dn fuel Phase.recv []
      (renderAll (Item.badFrame s :: its)) oracle (Item.badFrame s :: its)
      (by intro it hit
          rcases List.mem_cons.mp hit with h | h
          · subst h; exact ⟨hbad, hs64⟩
          · exact hits it h)
      (by simp) (fun _ => by simp)
      (by simp only [List.length_nil, phaseRank, hlen]; omega)
    rw [reader_loop, h]
    simp [eventsAll_cons, itemEvents]

/-- Witness for C2: a 3-byte payload round-trips through the frame
path under a byte-at-a-time chunking, and declared sizes `0` and
`MAX_IMAGE_SIZE + 1` are rejected while the following command line is
still delivered. -/
theorem c2_frame_roundtrip_witness :
    reader_loop (fun _ => none) [100] 100
      (FRAME_B ++ [10] ++ beBytes 8 ([7, 8, 9] : Bytes).length ++
        [7, 8, 9]) (List.replicate 20 1) =
      [AEv.frame [7, 8, 9], AEv.peerClosed] ∧
    reader_loop (fun _ => none) [100] 60
      (FRAME_B ++ [10] ++ beBytes 8 0 ++
        renderAll [Item.line [104, 105]]) [] =
      AEv.badFrameSize 0 ::
        (eventsAll [Item.line [104, 105]] ++ [AEv.peerClosed]) ∧
    reader_loop (fun _ => none) [100] 60
      (FRAME_B ++ [10] ++ beBytes 8 (MAX_IMAGE_SIZE + 1) ++
        renderAll []) [] =
      AEv.badFrameSize (MAX_IMAGE_SIZE + 1) ::
        (eventsAll [] ++ [AEv.peerClosed]) :=
  ⟨c2_frame_roundtrip.1 (fun _ => none) [100] [7, 8, 9]
      (List.replicate 20 1) 100 (by decide) (by decide) (by decide),
    c2_frame_roundtrip.2 (fun _ => none) [100] 0 [Item.line [104, 105]]
      [] 60 (Or.inl rfl) (by decide)
      (by intro it hit; simp at hit; subst hit; simp [itemOK]; decide)
      (by decide),
    c2_frame_roundtrip.2 (fun _ => none) [100] (MAX_IMAGE_SIZE + 1) []
      [] 60 (Or.inr (by decide)) (by decide)
      (by intro it hit; simp at hit) (by decide)⟩

/-- Claim C3 (confirmed).  For every upload whose declared 64-bit
size `S` passes the size check, the bytes written to the received
file are byte-for-byte the first `S` bytes following the size prefix
(`D`, with `|D| = S`), whatever split of the stream between the
already-buffered part, the chunking oracle, and excess bytes `E`;
in particular when the already-buffered bytes exceed `S` the write is
truncated to exactly `S` bytes. -/
theorem c3_upload_content_exact :
    ∀ (fm : Bytes → Option Bytes) (dn metaLine D E buffer rest : Bytes)
      (S : Nat) (oracle : List Nat),
    (10 : Nat) ∉ metaLine → S ≤ MAX_FILE_SIZE → D.length = S →
    buffer ++ rest = metaLine ++ 10 :: (beBytes 8 S ++ (D ++ E)) →
    ∃ r o, receive_file_from_buffer fm dn buffer rest oracle =
      ⟨[FileEv.receiving (fnameOfMeta fm dn metaLine),
        FileEv.received (fnameOfMeta fm dn metaLine)],
        some (fnameOfMeta fm dn metaLine, D), false, r, o⟩ ∧
      r.length ≤ rest.length :=
  fun fm dn metaLine D E buffer rest S oracle hml hS hD hcat =>
    receive_file_ok fm dn metaLine D E buffer rest S oracle hml hS hD hcat

/-- Witness for C3: a 2-byte file whose size prefix and first content
byte are already buffered, with one excess byte after the content. -/
theorem c3_upload_content_witness :
    ∃ r o, receive_file_from_buffer (fun _ => none) [102]
      [109, 10, 0, 0, 0, 0, 0, 0, 0, 2, 1] [2, 9] [1] =
      ⟨[FileEv.receiving (fnameOfMeta (fun _ => none) [102] [109]),
        FileEv.received (fnameOfMeta (fun _ => none) [102] [109])],
        some (fnameOfMeta (fun _ => none) [102] [109], [1, 2]),
        false, r, o⟩ ∧
      r.length ≤ ([2, 9] : Bytes).length :=
  c3_upload_content_exact (fun _ => none) [102] [109] [1, 2] [9]
    [109, 10, 0, 0, 0, 0, 0, 0, 0, 2, 1] [2, 9] 2 [1]
    (by decide) (by decide) (by decide) (by decide)

/-- Claim C6 (corrected).  The admin file receiver rejects a declared
size if and only if it exceeds the 10 GiB maximum: the unsigned
64-bit value parsed from `">Q"` is never negative, so the
`filesize < 0` half of the check never fires, and a declared size of
zero passes the check and produces an empty received file instead of
being rejected.  On rejection nothing is written, no temporary is
left, and the routine returns with the connection still up. -/
theorem c6_size_check_amended :
    (∀ (fm : Bytes → Option Bytes) (dn metaLine tail buffer rest : Bytes)
       (S : Nat) (oracle : List Nat),
      (10 : Nat) ∉ metaLine → MAX_FILE_SIZE < S → S < 2 ^ 64 →
      buffer ++ rest = metaLine ++ 10 :: (beBytes 8 S ++ tail) →
      ∃ r o, receive_file_from_buffer fm dn buffer rest oracle =
        ⟨[FileEv.invalidSize S], none, false, r, o⟩ ∧
        r.length ≤ rest.length) ∧
    (∀ (fm : Bytes → Option Bytes) (dn metaLine tail buffer rest : Bytes)
       (oracle : List Nat),
      (10 : Nat) ∉ metaLine →
      buffer ++ rest = metaLine ++ 10 :: (beBytes 8 0 ++ tail) →
      ∃ r o, receive_file_from_buffer fm dn buffer rest oracle =
        ⟨[FileEv.receiving (fnameOfMeta fm dn metaLine),
          FileEv.received (fnameOfMeta fm dn metaLine)],
          some (fnameOfMeta fm dn metaLine, []), false, r, o⟩ ∧
        r.length ≤ rest.length) := by
  constructor
  · intro fm dn metaLine tail buffer rest S oracle hml hS hS64 hcat
    exact receive_file_reject fm dn metaLine tail buffer rest S oracle
      hml hS hS64 hcat
  · intro fm dn metaLine tail buffer rest oracle hml hcat
    exact receive_file_ok fm dn metaLine [] tail buffer rest 0 oracle
      hml (by decide) rfl (by simpa using hcat)

/-- Witness for C6: an 11 GiB declared size is rejected; a zero
declared size is accepted. -/
theorem c6_size_check_witness :
    (∃ r o, receive_file_from_buffer (fun _ => none) [102]
      ([109, 10] ++ beBytes 8 (11 * 1024 * 1024 * 1024) ++ [7]) [] [] =
      ⟨[FileEv.invalidSize (11 * 1024 * 1024 * 1024)], none, false,
        r, o⟩ ∧ r.length ≤ ([] : Bytes).length) ∧
    (∃ r o, receive_file_from_buffer (fun _ => none) [102]
      ([109, 10] ++ beBytes 8 0 ++ [9, 9]) [] [] =
      ⟨[FileEv.receiving (fnameOfMeta (fun _ => none) [102] [109]),
        FileEv.received (fnameOfMeta (fun _ => none) [102] [109])],
        some (fnameOfMeta (fun _ => none) [102] [109], []), false,
        r, o⟩ ∧ r.length ≤ ([] : Bytes).length) :=
  ⟨c6_size_check_amended.1 (fun _ => none) [102] [109] [7]
      ([109, 10] ++ beBytes 8 (11 * 1024 * 1024 * 1024) ++ [7]) []
      (11 * 1024 * 1024 * 1024) [] (by decide) (by decide) (by decide)
      (by simp),
    c6_size_check_amended.2 (fun _ => none) [102] [109] [9, 9]
      ([109, 10] ++ beBytes 8 0 ++ [9, 9]) [] [] (by decide) (by simp)⟩

/-- Counterexample to C6 as stated: a declared size of zero (a
"zero-or-negative-equivalent" size) is not rejected — the receiver
writes an empty file, moves it into place, and logs a successful
reception, because the `filesize < 0` test can never fire on the
unsigned value parsed from `">Q"`. -/
theorem c6_counterexample :
    (receive_file_from_buffer (fun _ => none) [102]
      [109, 10, 0, 0, 0, 0, 0, 0, 0, 0, 9, 9] [] []).finalFile =
      some ([102], []) ∧
    (receive_file_from_buffer (fun _ => none) [102]
      [109, 10, 0, 0, 0, 0, 0, 0, 0, 0, 9, 9] [] []).events =
      [FileEv.receiving [102], FileEv.received [102]] := by
  refine ⟨by decide, by decide⟩

/-- Claim C8 (confirmed).  When the connection is lost mid-stream
during a client-to-admin transfer (fewer than the declared `S` bytes
arrive), the receiver's `except` branch runs: the failure is logged,
the `.part` temporary is removed, no final file appears, and the
routine returns normally instead of closing the connection. -/
theorem c8_partial_transfer_cleanup :
    ∀ (fm : Bytes → Option Bytes) (dn metaLine D buffer rest : Bytes)
      (S : Nat) (oracle : List Nat),
    (10 : Nat) ∉ metaLine → S ≤ MAX_FILE_SIZE → D.length < S →
    buffer ++ rest = metaLine ++ 10 :: (beBytes 8 S ++ D) →
    ∃ o, receive_file_from_buffer fm dn buffer rest oracle =
      ⟨[FileEv.receiving (fnameOfMeta fm dn metaLine), FileEv.error],
        none, false, [], o⟩ :=
  fun fm dn metaLine D buffer rest S oracle hml hS hD hcat =>
    receive_file_err fm dn metaLine D buffer rest S oracle hml hS hD hcat

/-- Witness for C8: a declared size of 5 with only 2 content bytes
delivered. -/
theorem c8_partial_transfer_witness :
    ∃ o, receive_file_from_buffer (fun _ => none) [102]
      [109, 10, 0, 0, 0, 0, 0, 0, 0, 5, 1] [2] [1] =
      ⟨[FileEv.receiving (fnameOfMeta (fun _ => none) [102] [109]),
        FileEv.error], none, false, [], o⟩ :=
  c8_partial_transfer_cleanup (fun _ => none) [102] [109] [1, 2]
    [109, 10, 0, 0, 0, 0, 0, 0, 0, 5, 1] [2] 5 [1]
    (by decide) (by decide) (by decide) (by decide)

/-- Claim C4 (confirmed).  On the admin side a 30-second read timeout
is not itself fatal: at a timeout check the connection is torn down
if and only if more than 60 seconds have passed since the last
heartbeat (first conjunct: the check is exactly the comparison
`now - lastHeartbeat > 60`); a `HEARTBEAT` line updates the
last-heartbeat timestamp and emits nothing (second conjunct); and a
trace whose timeout checks all fall within 60 seconds of the current
heartbeat timestamp is never declared dead (third conjunct). -/
theorem c4_timeout_and_heartbeat :
    (∀ (t last : ℚ) (evs : List TEv),
      liveLoop (TEv.timeout t :: evs) last =
        (if 60 < t - last then [AEv.livenessTimeout]
         else liveLoop evs last)) ∧
    (∀ (t last : ℚ) (evs : List TEv) (l : Bytes),
      upperBytes (stripBytes l) = HEARTBEAT_B →
      liveLoop (TEv.line t l :: evs) last = liveLoop evs t) ∧
    (∀ (evs : List TEv) (last : ℚ), goodT evs last →
      AEv.livenessTimeout ∉ liveLoop evs last) := by
  have hdisp : ∀ h : Bytes, AEv.livenessTimeout ∉ dispatchOf h := by
    intro h
    unfold dispatchOf
    split_ifs <;> simp
  refine ⟨?_, ?_, ?_⟩
  · intro t last evs
    simp [liveLoop]
  · intro t last evs l hhb
    have hne : stripBytes l ≠ [] := by
      intro h
      rw [h] at hhb
      exact absurd hhb (by decide)
    simp [liveLoop, hne, hhb]
  · intro evs
    induction evs with
    | nil =>
      intro last _
      simp [liveLoop]
    | cons e evs ih =>
      intro last hg
      cases e with
      | line t l =>
        by_cases hne : stripBytes l = []
        · have hnb : ¬ upperBytes (stripBytes l) = HEARTBEAT_B := by
            rw [hne]; decide
          simp only [goodT, if_neg hnb] at hg
          simpa [liveLoop, hne] using ih _ hg
        · by_cases hhb : upperBytes (stripBytes l) = HEARTBEAT_B
          · simp only [goodT, if_pos hhb] at hg
            simpa [liveLoop, hne, hhb] using ih _ hg
          · simp only [goodT, if_neg hhb] at hg
            simp only [liveLoop, if_neg hne, if_neg hhb]
            intro hmem
            rcases List.mem_append.mp hmem with h | h
            · exact hdisp _ h
            · exact ih _ hg h
      | timeout t =>
        obtain ⟨hle, hg2⟩ := hg
        simp only [liveLoop, if_neg (not_lt.mpr hle)]
        exact ih _ hg2

/-- Witness for C4: a timeout 65 s after the last heartbeat tears the
session down; a `HEARTBEAT` line at time 5 resets the timestamp; the
trace `heartbeat@5, timeout@50, heartbeat@55, timeout@80` never
reaches liveness teardown. -/
theorem c4_timeout_witness :
    liveLoop [TEv.timeout 65] 0 = [AEv.livenessTimeout] ∧
    liveLoop [TEv.line 5 HEARTBEAT_B, TEv.timeout 50] 0 =
      liveLoop [TEv.timeout 50] 5 ∧
    AEv.livenessTimeout ∉ liveLoop
      [TEv.line 5 HEARTBEAT_B, TEv.timeout 50, TEv.line 55 HEARTBEAT_B,
       TEv.timeout 80] 0 := by
  refine ⟨?_, ?_, ?_⟩
  · rw [c4_timeout_and_heartbeat.1 65 0 []]
    norm_num
  · exact c4_timeout_and_heartbeat.2.1 5 0 [TEv.timeout 50] HEARTBEAT_B
      (by decide)
  · apply c4_timeout_and_heartbeat.2.2
    have hc : upperBytes (stripBytes HEARTBEAT_B) = HEARTBEAT_B := by
      decide
    simp only [goodT, hc, if_pos]
    norm_num

/-! ## The file-push path (admin `send_file`, client `receive_file`) -/

theorem fileReadChunks_flatten :
    ∀ (fuel : Nat) (c : Bytes), c.length < fuel →
    (fileReadChunks fuel c).flatten = c := by
  intro fuel
  induction fuel with
  | zero => intro c h; omega
  | succ f ih =>
    intro c h
    cases c with
    | nil => simp [fileReadChunks]
    | cons c0 ctl =>
      simp only [fileReadChunks, List.flatten_cons]
      rw [ih _ (by
        simp only [List.length_drop, List.length_cons] at h ⊢
        unfold RECV_BUFFER
        omega)]
      exact List.take_append_drop _ _

/-- The `while len(meta_json) < meta_len` loop with an exhausted
oracle (every `recv` returns as much as its cap allows): it consumes
exactly the missing bytes. -/
theorem clientMeta_nil :
    ∀ (fuel need : Nat) (acc rest : Bytes),
    rest.length < fuel → need ≤ acc.length + rest.length →
    clientMeta fuel need acc rest [] =
      some (acc ++ rest.take (need - acc.length),
        rest.drop (need - acc.length), []) := by
  intro fuel
  induction fuel with
  | zero => intro need acc rest hf _; omega
  | succ f ih =>
    intro need acc rest hf htot
    by_cases hb : need ≤ acc.length
    · have h0 : need - acc.length = 0 := by omega
      cases rest <;> simp [clientMeta, hb, h0]
    · cases rest with
      | nil => simp at htot; omega
      | cons r0 rtl =>
        have hk1 : 1 ≤ chunkLen (([] : List Nat).headD RECV_BUFFER)
            (need - acc.length) (r0 :: rtl).length :=
          chunkLen_pos (by omega) (by simp)
        have hkcap : chunkLen (([] : List Nat).headD RECV_BUFFER)
            (need - acc.length) (r0 :: rtl).length ≤ need - acc.length :=
          chunkLen_le_cap _ _ _
        have hk2 : chunkLen (([] : List Nat).headD RECV_BUFFER)
            (need - acc.length) (r0 :: rtl).length ≤
              (r0 :: rtl).length :=
          chunkLen_le_avail _ _ _
        set k := chunkLen (([] : List Nat).headD RECV_BUFFER)
            (need - acc.length) (r0 :: rtl).length with hkdef
        rw [show clientMeta (f + 1) need acc (r0 :: rtl) [] =
          clientMeta f need (acc ++ (r0 :: rtl).take k)
            ((r0 :: rtl).drop k) [] by
          simp [clientMeta, hb, hkdef]]
        rw [ih need (acc ++ (r0 :: rtl).take k) ((r0 :: rtl).drop k)
          (by simp at hf ⊢; omega)
          (by simp at htot ⊢; omega)]
        have hlt : ((r0 :: rtl).take k).length = k := by
          rw [List.length_take]; omega
        congr 1
        have h1 : (acc ++ (r0 :: rtl).take k) ++
            ((r0 :: rtl).drop k).take (need -
              (acc ++ (r0 :: rtl).take k).length) =
            acc ++ (r0 :: rtl).take (need - acc.length) := by
          rw [List.append_assoc, ← List.take_add]
          congr 2
          simp only [List.length_append, hlt]
          omega
        have h2 : ((r0 :: rtl).drop k).drop (need -
            (acc ++ (r0 :: rtl).take k).length) =
            (r0 :: rtl).drop (need - acc.length) := by
          rw [List.drop_drop]
          congr 1
          simp only [List.length_append, hlt]
          omega
        rw [h1, h2]

/-- The `<END>`-scanning write loop of `receive_file` when the whole
remainder arrives in one chunk: the saved bytes are the remainder
truncated at the first terminator occurrence. -/
theorem clientContent_one (f : Nat) (r3 : Bytes)
    (hlen : r3.length ≤ BUFFER_SIZE) :
    clientContent (f + 1) [] r3 [] = (endTrunc r3, [], []) := by
  cases r3 with
  | nil => simp [clientContent, endTrunc, findSub]
  | cons r0 rtl =>
    have hk : chunkLen (([] : List Nat).headD RECV_BUFFER) BUFFER_SIZE
        (r0 :: rtl).length = (r0 :: rtl).length := by
      simp only [List.headD]
      unfold chunkLen BUFFER_SIZE RECV_BUFFER
      simp only [List.length_cons] at hlen ⊢
      unfold BUFFER_SIZE at hlen
      omega
    simp only [clientContent, hk, List.take_length, List.drop_length,
      List.tail_nil, List.nil_append]
    cases hfs : findSub END_B (r0 :: rtl) with
    | some pos => simp [endTrunc, hfs]
    | none =>
      have hrec : clientContent f (r0 :: rtl) [] [] =
          (r0 :: rtl, [], []) := by
        cases f <;> simp [clientContent]
      rw [hrec]
      simp [endTrunc, hfs]

/-- Claim C5 (corrected).  The admin side does emit exactly the line
`SEND_FILE:<basename>\n` followed by the raw file bytes and the
literal `<END>` terminator (first conjunct).  But the client routine
that handles this command does not reconstruct the content
byte-for-byte: it first consumes 4 bytes of the file data as a
big-endian metadata length `m` and the next `m` bytes as metadata
(framing the admin never sends on this path), then saves only the
bytes up to the first `<END>` occurrence — so what it saves is the
stream after the header with `4 + m` bytes stripped and truncated at
the first terminator (second conjunct, for a whole-remainder
chunking), not the pushed content; content containing `<END>` is
truncated even when the prefix happens to line up. -/
theorem c5_push_amended :
    (∀ basename content : Bytes,
      send_file_stream basename content =
        SEND_FILE_COLON_B ++ basename ++ [10] ++ content ++ END_B) ∧
    (∀ c : Bytes, 4 ≤ c.length →
      4 + parseBe (c.take 4) ≤ c.length + 5 →
      c.length + 5 - (4 + parseBe (c.take 4)) ≤ BUFFER_SIZE →
      (client_receive_file (c ++ END_B) []).saved =
        some (endTrunc ((c ++ END_B).drop (4 + parseBe (c.take 4))))) := by
  constructor
  · intro basename content
    unfold send_file_stream
    rw [fileReadChunks_flatten (content.length + 1) content (by omega)]
  · intro c h4 hm hrem
    obtain ⟨c0, ctl, rfl⟩ : ∃ c0 ctl, c = c0 :: ctl := by
      cases c with
      | nil => simp at h4
      | cons a b => exact ⟨a, b, rfl⟩
    have hE : END_B.length = 5 := rfl
    have hk4 : chunkLen (([] : List Nat).headD RECV_BUFFER) 4
        (c0 :: (ctl ++ END_B)).length = 4 := by
      simp only [List.headD]
      unfold chunkLen RECV_BUFFER
      have hlE : (ctl ++ END_B).length = ctl.length + 5 := by simp [hE]
      simp only [List.length_cons, hlE]
      omega
    have hcons : (c0 :: ctl) ++ END_B = c0 :: (ctl ++ END_B) := rfl
    have hmlb : (c0 :: (ctl ++ END_B)).take 4 = (c0 :: ctl).take 4 := by
      rw [← hcons]
      exact take_app_of_le END_B h4
    have hml4 : ((c0 :: ctl).take 4).length = 4 := by
      rw [List.length_take]
      omega
    rw [hcons]
    set m := parseBe ((c0 :: ctl).take 4) with hmdef
    have hld : ((c0 :: (ctl ++ END_B)).drop 4).length =
        (c0 :: ctl).length + 1 := by
      simp only [List.length_drop, List.length_cons, List.length_append,
        hE]
      simp only [List.length_cons] at h4
      omega
    have hmle : m ≤ (([] : Bytes)).length +
        ((c0 :: (ctl ++ END_B)).drop 4).length := by
      rw [hld]
      simp only [List.length_nil, Nat.zero_add]
      simp only [List.length_cons] at hm ⊢
      omega
    have hmeta := clientMeta_nil
      (((c0 :: (ctl ++ END_B)).drop 4).length + 1) m []
      ((c0 :: (ctl ++ END_B)).drop 4) (by omega) hmle
    have hr3 : ((c0 :: (ctl ++ END_B)).drop 4).drop
        (m - ([] : Bytes).length) =
        (c0 :: (ctl ++ END_B)).drop (4 + m) := by
      simp only [List.length_nil, Nat.sub_zero, List.drop_drop]
    have hr3len : ((c0 :: (ctl ++ END_B)).drop (4 + m)).length ≤
        BUFFER_SIZE := by
      simp only [List.length_drop, List.length_cons, List.length_append,
        hE]
      simp only [List.length_cons] at hrem
      omega
    have hcc := clientContent_one
      ((c0 :: (ctl ++ END_B)).drop (4 + m)).length
      ((c0 :: (ctl ++ END_B)).drop (4 + m)) hr3len
    simp only [client_receive_file, hk4, hmlb, hml4, Nat.lt_irrefl,
      if_false, List.tail_nil, ← hmdef, hmeta, hr3, hcc]

/-- Witness for the amended C5 theorem: the header emitted for
basename `f` and a nine-byte content whose first four bytes decode to
2, and what the client actually saves for that content under the
whole-remainder chunking. -/
theorem c5_push_witness :
    send_file_stream [102] [0, 0, 0, 2, 65, 66, 1, 2, 3] =
      SEND_FILE_COLON_B ++ [102] ++ [10] ++
        [0, 0, 0, 2, 65, 66, 1, 2, 3] ++ END_B ∧
    (client_receive_file ([0, 0, 0, 2, 65, 66, 1, 2, 3] ++ END_B)
        []).saved =
      some (endTrunc ((([0, 0, 0, 2, 65, 66, 1, 2, 3] : Bytes) ++
        END_B).drop
          (4 + parseBe (([0, 0, 0, 2, 65, 66, 1, 2, 3] : Bytes).take
            4)))) :=
  ⟨c5_push_amended.1 [102] [0, 0, 0, 2, 65, 66, 1, 2, 3],
   c5_push_amended.2 [0, 0, 0, 2, 65, 66, 1, 2, 3]
     (by decide) (by decide) (by decide)⟩

/-- Counterexample to claim C5 as stated: the admin pushes the
four-byte content `00 00 00 00`, but the client saves the empty file —
it consumed those four bytes as a metadata length, so the saved
content is not byte-for-byte the pushed content. -/
theorem c5_counterexample :
    send_file_stream [102] [0, 0, 0, 0] =
      SEND_FILE_COLON_B ++ [102] ++ [10] ++ [0, 0, 0, 0] ++ END_B ∧
    (client_receive_file ([0, 0, 0, 0] ++ END_B) []).saved =
      some [] ∧
    (some ([] : Bytes)) ≠ some [0, 0, 0, 0] := by
  refine ⟨by decide, by decide, by decide⟩

/-! ## Claim C7: collision handling on completed receptions -/

/-- The collision counter loop returns the least free counter: the
candidate at the returned counter is unused, the returned counter is
at least the starting one, and every candidate strictly between them
exists, provided some free counter lies within the fuel. -/
theorem findFree_least (fs : List Path) (dir : Path) (stem ext : Bytes) :
    ∀ (fuel c : Nat),
    (∃ j, j < fuel ∧ counterCand dir stem ext (c + j) ∉ fs) →
    counterCand dir stem ext (findFree fs dir stem ext c fuel) ∉ fs ∧
    c ≤ findFree fs dir stem ext c fuel ∧
    ∀ i, c ≤ i → i < findFree fs dir stem ext c fuel →
      counterCand dir stem ext i ∈ fs := by
  intro fuel
  induction fuel with
  | zero =>
    intro c h
    obtain ⟨j, hj, _⟩ := h
    exact absurd hj (Nat.not_lt_zero j)
  | succ f ih =>
    intro c hex
    by_cases hc : counterCand dir stem ext c ∈ fs
    · have hstep : findFree fs dir stem ext c (f + 1) =
          findFree fs dir stem ext (c + 1) f := by
        simp [findFree, hc]
      obtain ⟨j, hj, hfree⟩ := hex
      have hex2 : ∃ j2, j2 < f ∧
          counterCand dir stem ext (c + 1 + j2) ∉ fs := by
        cases j with
        | zero => exact absurd hc (by simpa using hfree)
        | succ j2 =>
          refine ⟨j2, by omega, ?_⟩
          have he : c + 1 + j2 = c + (j2 + 1) := by omega
          rw [he]
          exact hfree
      obtain ⟨h1, h2, h3⟩ := ih (c + 1) hex2
      rw [hstep]
      refine ⟨h1, by omega, ?_⟩
      intro i hci hil
      rcases Nat.eq_or_lt_of_le hci with he | hlt
      · rw [← he]
        exact hc
      · exact h3 i hlt hil
    · have hstep : findFree fs dir stem ext c (f + 1) = c := by
        simp [findFree, hc]
      rw [hstep]
      exact ⟨hc, le_rfl, fun i h1 h2 => absurd h2 (not_lt.mpr h1)⟩

/-- Claim C7 (corrected).  On the client side,
`_resolve_destination_path` does avoid silent overwrite: when the
resolved path is free it is used as is, and when it exists the routine
appends `_<counter>` before the extension with the least counter (from
1) whose candidate is unused (second and third conjuncts; the first
records that the full routine is exactly this collision step applied
to the normalized joined path).  On the admin side, however, the claim
fails: `_receive_file_from_buffer` computes its output path without
consulting the filesystem and ends with `os.replace(tmp_path,
outpath)`, which silently replaces any existing file of that name
(fourth conjunct: after the replace, the stored content at the target
is the new content regardless of what was there). -/
theorem c7_collision_amended :
    (∀ (fs : List Path) (home cwd : Path) (destination filename : Bytes),
      resolve_destination_path fs home cwd destination filename =
        resolveCollision fs (normalizeP
          (normalizeP (resolveBase home cwd destination) ++
            [filename]))) ∧
    (∀ (fs : List Path) (fp : Path), fp ∉ fs →
      resolveCollision fs fp = fp) ∧
    (∀ (fs : List Path) (fp : Path), fp ∈ fs →
      (∃ j, j < fs.length + 1 ∧
        counterCand fp.dropLast (splitextB (fp.getLastD [])).1
          (splitextB (fp.getLastD [])).2 (1 + j) ∉ fs) →
      ∃ n, 1 ≤ n ∧
        resolveCollision fs fp =
          counterCand fp.dropLast (splitextB (fp.getLastD [])).1
            (splitextB (fp.getLastD [])).2 n ∧
        counterCand fp.dropLast (splitextB (fp.getLastD [])).1
          (splitextB (fp.getLastD [])).2 n ∉ fs ∧
        ∀ i, 1 ≤ i → i < n →
          counterCand fp.dropLast (splitextB (fp.getLastD [])).1
            (splitextB (fp.getLastD [])).2 i ∈ fs) ∧
    (∀ (fs : List (Path × Bytes)) (target : Path) (content : Bytes),
      fsLookup (os_replace fs target content) target = some content) := by
  refine ⟨?_, ?_, ?_, ?_⟩
  · intro fs home cwd destination filename
    rfl
  · intro fs fp h
    simp [resolveCollision, h]
  · intro fs fp hin hex
    obtain ⟨h1, h2, h3⟩ := findFree_least fs fp.dropLast
      (splitextB (fp.getLastD [])).1 (splitextB (fp.getLastD [])).2
      (fs.length + 1) 1 hex
    refine ⟨findFree fs fp.dropLast (splitextB (fp.getLastD [])).1
        (splitextB (fp.getLastD [])).2 1 (fs.length + 1),
      h2, ?_, h1, h3⟩
    simp [resolveCollision, hin]
  · intro fs target content
    simp [fsLookup, os_replace]

/-- Witness for the amended C7 theorem: a free path is kept unchanged;
with `a.t` taken, the least free candidate `a_1.t` is chosen; and a
replace makes the new content win at the target. -/
theorem c7_collision_witness :
    resolveCollision ([] : List Path) [[97]] = [[97]] ∧
    (∃ n, 1 ≤ n ∧
      resolveCollision [[[97, 46, 116]]] [[97, 46, 116]] =
        counterCand (([[97, 46, 116]] : Path)).dropLast
          (splitextB ((([[97, 46, 116]] : Path)).getLastD [])).1
          (splitextB ((([[97, 46, 116]] : Path)).getLastD [])).2 n ∧
      counterCand (([[97, 46, 116]] : Path)).dropLast
        (splitextB ((([[97, 46, 116]] : Path)).getLastD [])).1
        (splitextB ((([[97, 46, 116]] : Path)).getLastD [])).2 n ∉
          [[[97, 46, 116]]] ∧
      ∀ i, 1 ≤ i → i < n →
        counterCand (([[97, 46, 116]] : Path)).dropLast
          (splitextB ((([[97, 46, 116]] : Path)).getLastD [])).1
          (splitextB ((([[97, 46, 116]] : Path)).getLastD [])).2 i ∈
            [[[97, 46, 116]]]) ∧
    fsLookup (os_replace [] [[98]] [1]) [[98]] = some [1] :=
  ⟨c7_collision_amended.2.1 [] [[97]] (by decide),
   c7_collision_amended.2.2.1 [[[97, 46, 116]]] [[97, 46, 116]]
     (by decide) ⟨0, by decide, by decide⟩,
   c7_collision_amended.2.2.2 [] [[98]] [1]⟩

/-- Counterexample to claim C7 as stated: the admin file receiver
completes a reception of content `[65]` for filename `f`; its output
path does not depend on what exists, and the final `os.replace` makes
the stored content at that very path become `[65]`, silently
destroying the `[9]` that was there — no counter suffix is ever
appended on the admin side. -/
theorem c7_counterexample :
    (receive_file_from_buffer (fun _ => some [102]) [100]
        [109, 10, 0, 0, 0, 0, 0, 0, 0, 1, 65] [] []).finalFile =
      some ([102], [65]) ∧
    fsLookup [(admin_outpath [[104], [117]] [102], [9])]
      (admin_outpath [[104], [117]] [102]) = some [9] ∧
    fsLookup (os_replace [(admin_outpath [[104], [117]] [102], [9])]
        (admin_outpath [[104], [117]] [102]) [65])
      (admin_outpath [[104], [117]] [102]) = some [65] ∧
    ([65] : Bytes) ≠ [9] := by
  refine ⟨by decide, by decide, by decide, by decide⟩

/-! ## Claim C9: broadcast isolation and counts -/

/-- Counting a predicate that holds on every element counts the whole
list. -/
theorem countP_of_all {α : Type} (p : α → Bool) :
    ∀ l : List α, (∀ x ∈ l, p x = true) → l.countP p = l.length := by
  intro l
  induction l with
  | nil =>
    intro _
    simp
  | cons a t ih =>
    intro h
    rw [List.countP_cons,
      ih (fun x hx => h x (List.mem_cons_of_mem a hx)),
      h a (List.mem_cons_self a t)]
    simp

/-- In a duplicate-free list containing `bad`, the elements other than
`bad` number exactly one less than the whole list. -/
theorem countP_ne_nodup {α : Type} [DecidableEq α] :
    ∀ (l : List α) (bad : α), l.Nodup → bad ∈ l →
    l.countP (fun c => decide (c ≠ bad)) = l.length - 1 := by
  intro l
  induction l with
  | nil =>
    intro bad _ h
    simp at h
  | cons a t ih =>
    intro bad hnd hmem
    have hnin : a ∉ t := (List.nodup_cons.mp hnd).1
    rw [List.countP_cons]
    rcases List.mem_cons.mp hmem with h | h
    · subst h
      have ht : t.countP (fun c => decide (c ≠ bad)) = t.length :=
        countP_of_all _ t (fun x hx => by
          simp only [decide_eq_true_eq]
          exact fun he => hnin (he ▸ hx))
      have hpa : ¬ ((fun c => decide (c ≠ bad)) bad = true) := by simp
      rw [if_neg hpa, ht]
      simp only [List.length_cons]
      omega
    · have hne : a ≠ bad := fun he => hnin (he ▸ h)
      have ht := ih bad (List.nodup_cons.mp hnd).2 h
      have hlen : 0 < t.length :=
        List.length_pos.mpr (List.ne_nil_of_mem h)
      have hpa : (fun c => decide (c ≠ bad)) a = true := by simp [hne]
      rw [if_pos hpa, ht]
      simp only [List.length_cons]
      omega

/-- Claim C9 (corrected).  `broadcast_command` snapshots the registry
and calls `send_command` on every session of the snapshot in order;
`send_command` catches its own exceptions and reports a boolean, so an
attempt is made for every session regardless of earlier failures, the
success counter counts exactly the sessions whose send succeeded, and
with `N` distinct sessions of which exactly one fails the count is
`N - 1` while every other session is attempted with a successful
outcome.  The claim is wrong about the return value: the counts only
reach the final log line, and the Python function returns `None`, not
a success/total pair (`ret = none` below). -/
theorem c9_broadcast_amended :
    (∀ (α : Type) (clients : List α) (sendOk : α → Bool),
      (broadcast_command clients sendOk).attempts =
        clients.map (fun h => (h, sendOk h)) ∧
      (broadcast_command clients sendOk).success =
        clients.countP (fun h => sendOk h) ∧
      (broadcast_command clients sendOk).total = clients.length ∧
      (broadcast_command clients sendOk).logCounts =
        ((broadcast_command clients sendOk).success, clients.length) ∧
      (broadcast_command clients sendOk).ret = none) ∧
    (∀ (α : Type) [DecidableEq α] (clients : List α) (bad : α),
      clients.Nodup → bad ∈ clients →
      (broadcast_command clients (fun c => decide (c ≠ bad))).success =
        clients.length - 1 ∧
      ∀ c ∈ clients, c ≠ bad →
        (c, true) ∈ (broadcast_command clients
          (fun c => decide (c ≠ bad))).attempts) := by
  constructor
  · intro α clients sendOk
    exact ⟨rfl, rfl, rfl, rfl, rfl⟩
  · intro α inst clients bad hnd hmem
    constructor
    · exact countP_ne_nodup clients bad hnd hmem
    · intro c hc hne
      show (c, true) ∈ clients.map (fun h => (h, decide (h ≠ bad)))
      refine List.mem_map.mpr ⟨c, hc, ?_⟩
      simp [hne]

/-- Witness for the amended C9 theorem: three distinct sessions with
session 1 failing give success count 2, both other sessions attempted
successfully, and return value `none`. -/
theorem c9_broadcast_witness :
    ((broadcast_command [0, 1, 2] (fun c => decide (c ≠ 1))).success =
        [0, 1, 2].length - 1 ∧
      ∀ c ∈ [0, 1, 2], c ≠ 1 →
        (c, true) ∈ (broadcast_command [0, 1, 2]
          (fun c => decide (c ≠ 1))).attempts) ∧
    (broadcast_command [0, 1, 2]
      (fun c => decide (c ≠ 1))).ret = none :=
  ⟨c9_broadcast_amended.2 ℕ [0, 1, 2] 1 (by decide) (by decide),
   (c9_broadcast_amended.1 ℕ [0, 1, 2]
     (fun c => decide (c ≠ 1))).2.2.2.2⟩

/-- Counterexample to claim C9 as stated: with three sessions and one
failing send, the counts 2 of 3 are computed and logged, but the
routine returns `None` rather than the success/total pair the claim
asserts. -/
theorem c9_counterexample :
    (broadcast_command [0, 1, 2] (fun c => decide (c ≠ 1))).success =
      2 ∧
    (broadcast_command [0, 1, 2] (fun c => decide (c ≠ 1))).total = 3 ∧
    (broadcast_command [0, 1, 2]
      (fun c => decide (c ≠ 1))).logCounts = (2, 3) ∧
    (broadcast_command [0, 1, 2] (fun c => decide (c ≠ 1))).ret =
      none ∧
    (none : Option (Nat × Nat)) ≠ some (2, 3) := by
  refine ⟨by decide, by decide, by decide, by decide, by decide⟩

/-! ## Claim C10: basename containment -/

/-- Folding the normalization step over components that are neither
empty nor `.` nor `..` just appends them. -/
theorem foldl_normStep_clean :
    ∀ (p : Path) (acc : Path), (∀ c ∈ p, cleanComp c) →
    p.foldl normStep acc = acc ++ p := by
  intro p
  induction p with
  | nil =>
    intro acc _
    simp
  | cons c t ih =>
    intro acc h
    obtain ⟨h1, h2, h3⟩ := h c (List.mem_cons_self c t)
    have hstep : normStep acc c = acc ++ [c] := by
      simp [normStep, h1, h2, h3]
    rw [List.foldl_cons, hstep,
      ih (acc ++ [c]) (fun x hx => h x (List.mem_cons_of_mem c hx))]
    simp

/-- A path of clean components is a fixed point of `normpath`. -/
theorem normalizeP_clean (p : Path) (h : ∀ c ∈ p, cleanComp c) :
    normalizeP p = p := by
  unfold normalizeP
  rw [foldl_normStep_clean p [] h]
  simp

/-- The generalized invariant behind `os.path.basename`: no separator
byte survives the fold whatever the starting accumulator. -/
theorem pyBasename_aux :
    ∀ (l acc : Bytes), (47 : Nat) ∉ acc →
    (47 : Nat) ∉ l.foldl
      (fun acc b => if b = 47 then [] else acc ++ [b]) acc := by
  intro l
  induction l with
  | nil =>
    intro acc h
    simpa using h
  | cons b t ih =>
    intro acc h
    rw [List.foldl_cons]
    by_cases hb : b = 47
    · rw [if_pos hb]
      exact ih [] (by simp)
    · rw [if_neg hb]
      apply ih
      intro hmem
      rcases List.mem_append.mp hmem with h1 | h1
      · exact h h1
      · rw [List.mem_singleton] at h1
        exact hb h1.symm

/-- The `os.path.basename` model never yields a component containing
the path separator. -/
theorem pyBasename_no_slash (l : Bytes) : (47 : Nat) ∉ pyBasenameB l := by
  unfold pyBasenameB
  exact pyBasename_aux l [] (by simp)

/-- Appending a single component and dropping the last component are
inverse. -/
theorem dropLast_app_single {α : Type} (l : List α) (a : α) :
    (l ++ [a]).dropLast = l := by
  simp

/-- The collision step keeps the directory: it only ever rewrites the
final component. -/
theorem resolveCollision_shape (fs : List Path) (base : Path)
    (c : Bytes) :
    ∃ d : Bytes, resolveCollision fs (base ++ [c]) = base ++ [d] := by
  unfold resolveCollision
  by_cases h : base ++ [c] ∈ fs
  · rw [if_pos h]
    simp only [counterCand, dropLast_app_single]
    exact ⟨_, rfl⟩
  · rw [if_neg h]
    exact ⟨c, rfl⟩

/-- Claim C10 (corrected).  `os.path.basename` does strip every
separator (first conjunct), and when the resulting component is clean
(non-empty and not `.` or `..`) both receivers stay inside their
chosen directory: the client path for the `Downloads` destination is
the `Downloads` directory plus exactly one final component (second
conjunct), and the admin output path is the inbox directory plus the
basename (third conjunct).  The claim as stated is wrong because
`basename` does not neutralize the component `..`: `normpath` then
pops a directory, so a metadata filename of `..` makes the client
write outside its chosen destination (see the counterexample). -/
theorem c10_basename_containment_amended :
    (∀ raw : Bytes, (47 : Nat) ∉ pyBasenameB raw) ∧
    (∀ (fs : List Path) (home cwd : Path) (filename : Bytes),
      (∀ c ∈ home, cleanComp c) → cleanComp filename →
      (resolve_destination_path fs home cwd DOWNLOADS_LC
        filename).dropLast = home ++ [DOWNLOADS_C] ∧
      (resolve_destination_path fs home cwd DOWNLOADS_LC
        filename).length = home.length + 2) ∧
    (∀ (home : Path) (raw : Bytes),
      (∀ c ∈ home, cleanComp c) → cleanComp (pyBasenameB raw) →
      admin_outpath home raw = inboxDir home ++ [pyBasenameB raw]) := by
  refine ⟨pyBasename_no_slash, ?_, ?_⟩
  · intro fs home cwd filename hhome hfile
    have hD : cleanComp DOWNLOADS_C := ⟨by decide, by decide, by decide⟩
    have hbase : resolveBase home cwd DOWNLOADS_LC =
        home ++ [DOWNLOADS_C] := by
      unfold resolveBase
      rw [if_pos (by decide)]
    have hmem : ∀ c ∈ home ++ [DOWNLOADS_C], cleanComp c := by
      intro c hc
      rcases List.mem_append.mp hc with h1 | h1
      · exact hhome c h1
      · rw [List.mem_singleton] at h1
        rw [h1]
        exact hD
    have hmem2 : ∀ c ∈ (home ++ [DOWNLOADS_C]) ++ [filename],
        cleanComp c := by
      intro c hc
      rcases List.mem_append.mp hc with h1 | h1
      · exact hmem c h1
      · rw [List.mem_singleton] at h1
        rw [h1]
        exact hfile
    have hfp : resolve_destination_path fs home cwd DOWNLOADS_LC
        filename =
        resolveCollision fs ((home ++ [DOWNLOADS_C]) ++ [filename]) := by
      unfold resolve_destination_path
      rw [hbase, normalizeP_clean (home ++ [DOWNLOADS_C]) hmem,
        normalizeP_clean ((home ++ [DOWNLOADS_C]) ++ [filename]) hmem2]
    obtain ⟨d, hd⟩ :=
      resolveCollision_shape fs (home ++ [DOWNLOADS_C]) filename
    rw [hfp, hd]
    constructor
    · exact dropLast_app_single _ _
    · simp
  · intro home raw hhome hfile
    unfold admin_outpath
    apply normalizeP_clean
    intro c hc
    rcases List.mem_append.mp hc with h1 | h1
    · unfold inboxDir at h1
      rcases List.mem_append.mp h1 with h2 | h2
      · exact hhome c h2
      · rw [List.mem_singleton] at h2
        rw [h2]
        exact ⟨by decide, by decide, by decide⟩
    · rw [List.mem_singleton] at h1
      rw [h1]
      exact hfile

/-- Witness for the amended C10 theorem: a slash-laden raw name loses
its separators, the clean filename `f` lands directly under
`Downloads` with home `/h/u`, and the admin path for `f` is the inbox
directory plus `f`. -/
theorem c10_basename_witness :
    (47 : Nat) ∉ pyBasenameB [47, 116, 109, 112, 47, 102] ∧
    ((resolve_destination_path [] [[104], [117]] [[99]] DOWNLOADS_LC
        [102]).dropLast = [[104], [117]] ++ [DOWNLOADS_C] ∧
      (resolve_destination_path [] [[104], [117]] [[99]] DOWNLOADS_LC
        [102]).length = ([[104], [117]] : Path).length + 2) ∧
    admin_outpath [[104], [117]] [102] =
      inboxDir [[104], [117]] ++ [pyBasenameB [102]] :=
  ⟨c10_basename_containment_amended.1 [47, 116, 109, 112, 47, 102],
   c10_basename_containment_amended.2.1 [] [[104], [117]] [[99]] [102]
     (by
       intro c hc
       simp only [List.mem_cons, List.not_mem_nil, or_false] at hc
       rcases hc with rfl | rfl
       · exact ⟨by decide, by decide, by decide⟩
       · exact ⟨by decide, by decide, by decide⟩)
     ⟨by decide, by decide, by decide⟩,
   c10_basename_containment_amended.2.2 [[104], [117]] [102]
     (by
       intro c hc
       simp only [List.mem_cons, List.not_mem_nil, or_false] at hc
       rcases hc with rfl | rfl
       · exact ⟨by decide, by decide, by decide⟩
       · exact ⟨by decide, by decide, by decide⟩)
     ⟨by decide, by decide, by decide⟩⟩

/-- Counterexample to claim C10 as stated: `basename` leaves `..`
unchanged, and with home `/h/u` and the `Downloads` destination the
client resolves the metadata filename `..` to `/h/u_1` — the
normalization popped the `Downloads` component and the collision step
(the home directory itself exists) renamed the home component, so the
file is written outside the chosen destination. -/
theorem c10_counterexample :
    pyBasenameB [46, 46] = [46, 46] ∧
    resolve_destination_path
        [[[104], [117]], [[104], [117], DOWNLOADS_C]]
        [[104], [117]] [[99]] DOWNLOADS_LC (pyBasenameB [46, 46]) =
      [[104], [117, 95, 49]] ∧
    ([[104], [117, 95, 49]] : Path).dropLast ≠
      [[104], [117]] ++ [DOWNLOADS_C] ∧
    DOWNLOADS_C ∉ ([[104], [117, 95, 49]] : Path) := by
  refine ⟨by decide, by decide, by decide, by decide⟩

end Thesis
